import Mathlib

/-!
Verification of the document model and content-mutation engine of the
SRE learning-path CLI (src/main.go).

Go strings are modelled as lists of characters (`Str`); this matches the
byte-level Go code on the ASCII operations the program performs (all
markers, header characters and whitespace handled by the code are ASCII,
and UTF-8 is self-synchronizing, so substring search over valid UTF-8
agrees with character-level search).  Go slices of strings are
`List Str`; where Go slice capacity matters (`append` aliasing in
`UpdateFileSection`) the capacity is passed explicitly.  Functions that
can panic in Go return `Option`.
-/

namespace SreLearn

/-- A Go string, as a list of characters. -/
abbrev Str := List Char

/-- Coerce a Lean string literal to `Str`. -/
def strOf (s : String) : Str := s.data

/-- `unicode.IsSpace` restricted to the ASCII range: space, \t, \n, \v,
\f, \r.  This is the set `strings.TrimSpace` and `strings.Fields` use on
ASCII input; the sources never feed non-ASCII whitespace to them. -/
def isWs (c : Char) : Bool :=
  c = ' ' || c = '\t' || c = '\n' || c = Char.ofNat 11 || c = Char.ofNat 12 || c = '\r'

/-- The RE2 character class `\s`, i.e. `[\t\n\f\r ]` (note: unlike
`unicode.IsSpace` it does not contain `\v`). -/
def isReWs (c : Char) : Bool :=
  c = ' ' || c = '\t' || c = '\n' || c = Char.ofNat 12 || c = '\r'

/-- The RE2 character class `\d`. -/
def isDigit (c : Char) : Bool :=
  '0' ≤ c && c ≤ '9'

/-- Left part of `strings.TrimSpace`. -/
def trimLeftWs (s : Str) : Str := s.dropWhile isWs

/-- Right part of `strings.TrimSpace`. -/
def trimRightWs (s : Str) : Str := (s.reverse.dropWhile isWs).reverse

/-- `strings.TrimSpace`. -/
def trimS (s : Str) : Str := trimRightWs (trimLeftWs s)

/-- `strings.Split(s, "\n")`. -/
def splitNl : Str → List Str
  | [] => [[]]
  | c :: rest =>
    if c = '\n' then [] :: splitNl rest
    else
      match splitNl rest with
      | [] => [[c]]
      | l :: ls => (c :: l) :: ls

/-- `strings.Join(ls, "\n")`. -/
def joinNl : List Str → Str
  | [] => []
  | [l] => l
  | l :: ls => l ++ '\n' :: joinNl ls

/-- `strings.Contains(s, pat)` (via `strings.Index`): scan left to right
for a position where `pat` is a prefix of the remaining input. -/
def containsSub : Str → Str → Bool
  | [], pat => pat.isPrefixOf ([] : Str)
  | c :: rest, pat => pat.isPrefixOf (c :: rest) || containsSub rest pat

/-- `strings.Replace(s, pat, rep, 1)`: replace the leftmost occurrence
of `pat` (for empty `pat`, Go inserts `rep` before `s`, which this
definition also does). -/
def replaceFirst : Str → Str → Str → Str
  | [], pat, rep => if pat.isPrefixOf ([] : Str) then rep else []
  | c :: rest, pat, rep =>
    if pat.isPrefixOf (c :: rest) then rep ++ (c :: rest).drop pat.length
    else c :: replaceFirst rest pat rep

/-- Index of the leftmost occurrence of `pat` in `s`
(`strings.Index` when it is nonnegative). -/
def findSub : Str → Str → Option Nat
  | [], pat => if pat.isPrefixOf ([] : Str) then some 0 else none
  | c :: rest, pat =>
    if pat.isPrefixOf (c :: rest) then some 0
    else (findSub rest pat).map (· + 1)

/-- `pat` occurs in `s` at position `i`. -/
def matchesAt (s pat : Str) (i : Nat) : Prop :=
  pat.isPrefixOf (s.drop i)

instance (s pat : Str) (i : Nat) : Decidable (matchesAt s pat i) := by
  unfold matchesAt; infer_instance

/-- Number of positions of `s` at which `pat` occurs. -/
def subOccurrences (s pat : Str) : Nat :=
  (List.range s.length).countP (fun i => decide (matchesAt s pat i))

/-- `strings.HasPrefix`. -/
def startsWith (s pat : Str) : Bool := pat.isPrefixOf s

/-- The section data type (struct `Section` in src/main.go): `title` is
the regex capture after the header markers, `content` the joined body
lines, `level` the header depth, `line` the 0-indexed offset of the
header line in the backing line array at the last parse. -/
structure Section where
  title : Str
  content : Str
  level : Nat
  line : Nat
deriving DecidableEq, Repr

/-- The application state (struct `App`), restricted to the fields the
core operations read: the parsed sections, the cursor, and the backing
line array.  `currentIdx` is a Go `int`, hence `Int`. -/
structure App where
  sections : List Section
  currentIdx : Int
  fileLines : List Str
deriving DecidableEq, Repr

/-- `App.GetCurrentSection`: the section under the cursor, or `none`
when there are no sections or the cursor is out of bounds. -/
def getCurrentSection (a : App) : Option Section :=
  if a.sections.length = 0 ∨ a.currentIdx < 0 ∨ (a.sections.length : Int) ≤ a.currentIdx then
    none
  else
    a.sections.get? a.currentIdx.toNat

/-- `App.GotoSection`: move the cursor to `idx` if it is in bounds,
report whether the move happened. -/
def gotoSection (a : App) (idx : Int) : Bool × App :=
  if 0 ≤ idx ∧ idx < (a.sections.length : Int) then
    (true, { a with currentIdx := idx })
  else
    (false, a)

/-- The viewport state (struct `Renderer`), restricted to the fields the
scroll operations read. -/
structure Renderer where
  scrollOffset : Int
  pageSize : Int
deriving DecidableEq, Repr

/-- `Renderer.ScrollDown`: advance by 3 if a further page exists. -/
def scrollDown (a : App) (r : Renderer) : Bool × Renderer :=
  match getCurrentSection a with
  | none => (false, r)
  | some sec =>
    if r.scrollOffset + r.pageSize < ((splitNl sec.content).length : Int) then
      (true, { r with scrollOffset := r.scrollOffset + 3 })
    else
      (false, r)

/-- `Renderer.ScrollUp`: retreat by 3, clamped at 0. -/
def scrollUp (r : Renderer) : Bool × Renderer :=
  if 0 < r.scrollOffset then
    let o := r.scrollOffset - 3
    (true, { r with scrollOffset := if o < 0 then 0 else o })
  else
    (false, r)

/-- Length of the run of leading header markers of a line. -/
def hashRun (l : Str) : Nat := (l.takeWhile (fun c => c = '#')).length

/-- `headerRegex.FindStringSubmatch(line)` for the anchored pattern
`^(#{1,4})\s+(.+)$`, returning `(len(matches[1]), matches[2])`, i.e. the
level and the title capture.  Derivation from RE2 leftmost-first
semantics, for a line not containing a newline (lines come from a split
on newlines): `#{1,4}` can only consume leading markers, and any shorter
choice than the full run leaves a marker where `\s+` must match, so a
match forces the run length to be between 1 and 4 and `matches[1]` to be
the whole run.  Let `r` be the remainder after the run and `w` the
length of its maximal leading `\s` run; `\s+` requires `w ≥ 1`.  Greedy
`\s+` takes all `w` characters when something follows them
(`matches[2]` is then `r` without its leading whitespace); when `r` is
whitespace only, `\s+` backtracks one character so that `.+` can match,
which needs `r` to have at least 2 characters and captures exactly the
last one. -/
def headerMatch (l : Str) : Option (Nat × Str) :=
  let run := hashRun l
  let r := l.drop run
  let w := (r.takeWhile isReWs).length
  if 1 ≤ run ∧ run ≤ 4 ∧ 1 ≤ w then
    if w < r.length then some (run, r.drop w)
    else if 2 ≤ r.length then some (run, r.drop (r.length - 1))
    else none
  else none

/-- The loop state of `App.ParseSections`: sections already closed, the
open section (title, level, start line) if any, and its pending content
lines. -/
structure ParseAcc where
  secs : List Section
  cur : Option (Str × Nat × Nat)
  contentLines : List Str
deriving Repr

/-- Close the open section, assigning it the accumulated content
(the `Save previous section` and `Save last section` blocks of
`ParseSections`). -/
def closeCur (st : ParseAcc) : List Section :=
  match st.cur with
  | some (t, lv, ln) => st.secs ++ [⟨t, joinNl st.contentLines, lv, ln⟩]
  | none => st.secs

/-- One iteration of the `ParseSections` loop at line index `i`. -/
def parseStep (i : Nat) (line : Str) (st : ParseAcc) : ParseAcc :=
  match headerMatch line with
  | some (lv, t) => ⟨closeCur st, some (t, lv, i), []⟩
  | none =>
    match st.cur with
    | some _ => { st with contentLines := st.contentLines ++ [line] }
    | none => st

/-- The `for i, line := range a.FileLines` loop of `ParseSections`. -/
def parseLoop : Nat → List Str → ParseAcc → ParseAcc
  | _, [], st => st
  | i, l :: ls, st => parseLoop (i + 1) ls (parseStep i l st)

/-- `App.ParseSections`: sections of a line array. -/
def parseSections (lines : List Str) : List Section :=
  closeCur (parseLoop 0 lines ⟨[], none, []⟩)

/-- Reference list of the indices (counted from `i`) of the lines that
match the header pattern; used to state parser invariants. -/
def headerIdxs : Nat → List Str → List Nat
  | _, [] => []
  | i, l :: ls => (if (headerMatch l).isSome then [i] else []) ++ headerIdxs (i + 1) ls

/-- The unchecked checkbox marker literal. -/
def uncheckedMark : Str := strOf ("- [ ]")

/-- The checked checkbox marker literal. -/
def checkedMark : Str := strOf ("- [x]")

/-- The note-block start pattern of `extractNotes` and `cleanAllNotes`. -/
def noteStartPat : Str := strOf ("> **Ghi chú [")

/-- The containment pattern of `removeNoteFromContent`. -/
def noteContainsPat : Str := strOf ("**Ghi chú [")

/-- The quote marker. -/
def quotePat : Str := strOf (">")

/-- `App.ToggleCheckbox`: toggle the checkbox on content line
`contentLineIdx` of the current section.  Replaces the first occurrence
of the unchecked marker by the checked one when the line contains the
unchecked marker, otherwise of the checked marker by the unchecked one;
reports `false` without mutating when there is no current section, the
index is out of range, or the line has no marker. -/
def toggleCheckbox (a : App) (contentLineIdx : Int) : Bool × App :=
  match getCurrentSection a with
  | none => (false, a)
  | some sec =>
    let lines := splitNl sec.content
    if contentLineIdx < 0 ∨ (lines.length : Int) ≤ contentLineIdx then
      (false, a)
    else
      let i := contentLineIdx.toNat
      let line := lines.getD i []
      if containsSub line uncheckedMark then
        let lines2 := lines.set i (replaceFirst line uncheckedMark checkedMark)
        let sec2 := { sec with content := joinNl lines2 }
        (true, { a with sections := a.sections.set a.currentIdx.toNat sec2 })
      else if containsSub line checkedMark then
        let lines2 := lines.set i (replaceFirst line checkedMark uncheckedMark)
        let sec2 := { sec with content := joinNl lines2 }
        (true, { a with sections := a.sections.set a.currentIdx.toNat sec2 })
      else
        (false, a)

/-- `App.AddNote`: append a timestamped block-quote note to the current
section.  No-op for the empty note; Go indexes
`a.Sections[a.CurrentIdx]` without a bounds check, which panics
(`none`) when the index is out of range.  The timestamp string is a
parameter (the code formats `time.Now()`). -/
def addNote (a : App) (timestamp note : Str) : Option App :=
  if note = [] then
    some a
  else if 0 ≤ a.currentIdx then
    match a.sections.get? a.currentIdx.toNat with
    | some s =>
      let s2 := { s with content := s.content ++
        (strOf ("\n\n> **Ghi chú [") ++ timestamp ++ strOf ("]:** ") ++ note) }
      some { a with sections := a.sections.set a.currentIdx.toNat s2 }
    | none => none
  else none

/-- The loop of `removeNoteFromContent`: walk the content lines with the
skip flag (`skipUntilNonNote`).  A line both containing the label
pattern and whose trimmed form minus its first two characters is
contained in the first line of the note to delete starts skipping; while
skipping, quote-prefixed lines are dropped, and a blank line is dropped
when the NEXT line is quote-prefixed; any other line ends skipping and
is kept.  (`trimmed[2:]` drops two bytes in Go; two characters here,
which coincides whenever the trimmed line starts with two ASCII
characters, as every line containing the ASCII label-start does.) -/
def removeLoop (fnl : Str) : List Str → Bool → List Str
  | [], _ => []
  | line :: rest, skip =>
    let trimmed := trimS line
    if containsSub trimmed noteContainsPat && containsSub fnl (trimmed.drop 2) then
      removeLoop fnl rest true
    else if skip && startsWith trimmed quotePat then
      removeLoop fnl rest true
    else if skip && decide (trimmed = []) &&
        (match rest with
          | next :: _ => startsWith (trimS next) quotePat
          | [] => false) then
      removeLoop fnl rest true
    else
      line :: removeLoop fnl rest false

/-- `removeNoteFromContent`: delete the note block matching
`noteToRemove` from the content, then trim the result. -/
def removeNoteFromContent (content noteToRemove : Str) : Str :=
  let lines := splitNl content
  let fnl :=
    match splitNl noteToRemove with
    | l :: _ => trimS l
    | [] => []
  trimS (joinNl (removeLoop fnl lines false))

/-- The loop state of `extractNotes`: collected notes, the pending
note's (trimmed) lines — the string builder holds their join, and its
`Len() > 0` test is their nonemptiness since each is nonempty — and the
`inNote` flag. -/
structure NoteAcc where
  notes : List Str
  cur : List Str
  inNote : Bool
deriving Repr

/-- One iteration of the `extractNotes` loop. -/
def extractStep (st : NoteAcc) (line : Str) : NoteAcc :=
  let trimmed := trimS line
  if startsWith trimmed noteStartPat then
    ⟨if st.cur ≠ [] then st.notes ++ [trimS (joinNl st.cur)] else st.notes, [trimmed], true⟩
  else if st.inNote && startsWith trimmed quotePat then
    ⟨st.notes, st.cur ++ [trimmed], st.inNote⟩
  else if st.inNote && decide (trimmed = []) then
    ⟨if st.cur ≠ [] then st.notes ++ [trimS (joinNl st.cur)] else st.notes, [], false⟩
  else
    ⟨if st.inNote && decide (st.cur ≠ []) then st.notes ++ [trimS (joinNl st.cur)] else st.notes,
     if st.inNote && decide (st.cur ≠ []) then [] else st.cur, false⟩

/-- `extractNotes`: scan the content lines, collecting note blocks. -/
def extractNotes (content : Str) : List Str :=
  let st := (splitNl content).foldl extractStep ⟨[], [], false⟩
  if st.cur ≠ [] then st.notes ++ [trimS (joinNl st.cur)] else st.notes

/-- `App.UpdateFileSection`, with the Go slice semantics of

    newFileLines := append(a.FileLines[:startLine], newLines...)
    newFileLines = append(newFileLines, a.FileLines[endLine:]...)

made explicit.  `cap` is the capacity of the Go slice behind
`a.fileLines` (equal to its length when the lines come fresh from
`strings.Split`).  When `startLine + len(newLines) ≤ cap`, the first
append writes `newLines` into the backing array in place, so the still
live view `a.FileLines` (of unchanged length `L`) is clobbered from
index `startLine` on, and the second append then reads
`a.FileLines[endLine:]` from that clobbered view; otherwise the first
append reallocates and the original lines are read.  (The second
append's own copy is overlap-safe either way.)  The embedding covers
the states where `startLine ≤ L`, `endLine ≤ L` and `L ≤ cap` — after a
parse every section start line is a valid index (see
`parse_invariants`) — and returns `none` outside them, where Go would
panic on the slice bounds or expose uninitialized capacity. -/
def updateFileSection (cap : Nat) (a : App) (idx : Int) : Option App :=
  if idx < 0 ∨ (a.sections.length : Int) ≤ idx then
    some a
  else
    let i := idx.toNat
    match a.sections.get? i with
    | none => some a
    | some sec =>
      let startLine := sec.line
      let L := a.fileLines.length
      let endLine :=
        if i < a.sections.length - 1 then
          (((a.sections.get? (i + 1)).map Section.line).getD 0)
        else L
      let headerLine := List.replicate sec.level '#' ++ strOf (" ") ++ sec.title
      let newLines := headerLine :: splitNl sec.content
      let k := newLines.length
      if startLine ≤ L ∧ endLine ≤ L ∧ L ≤ cap then
        if startLine + k ≤ cap then
          let visible :=
            (a.fileLines.take startLine ++ newLines ++ a.fileLines.drop (startLine + k)).take L
          some { a with fileLines := (a.fileLines.take startLine ++ newLines) ++ visible.drop endLine }
        else
          some { a with fileLines := a.fileLines.take startLine ++ newLines ++ a.fileLines.drop endLine }
      else
        none

/-- A concrete two-section state used by witness theorems. -/
def wApp8 : App :=
  { sections :=
      [⟨strOf ("A"), strOf ("x"), 1, 0⟩, ⟨strOf ("B"), strOf ("y"), 2, 2⟩],
    currentIdx := 0,
    fileLines := [strOf ("# A"), strOf ("x"), strOf ("## B"), strOf ("y")] }

/-- The ANSI escape character. -/
def escChar : Char := Char.ofNat 27

/-- ANSI codes used by `RenderLine` (constants of src/main.go). -/
def resetE : Str := strOf ("\x1b[0m")

/-- `Bold`. -/
def boldE : Str := strOf ("\x1b[1m")

/-- `Dim`. -/
def dimE : Str := strOf ("\x1b[2m")

/-- `Italic`. -/
def italicE : Str := strOf ("\x1b[3m")

/-- `Red`. -/
def redE : Str := strOf ("\x1b[31m")

/-- `Green`. -/
def greenE : Str := strOf ("\x1b[32m")

/-- `Yellow`. -/
def yellowE : Str := strOf ("\x1b[33m")

/-- `Cyan`. -/
def cyanE : Str := strOf ("\x1b[36m")

/-- `BgBlack`. -/
def bgBlackE : Str := strOf ("\x1b[40m")

/-- `strings.TrimPrefix`. -/
def trimPre (s pat : Str) : Str :=
  if pat.isPrefixOf s then s.drop pat.length else s

/-- The glyph literals of `RenderLine` as they stand in the source file,
byte for byte.  The file stores each one as three runes (UTF-8 bytes
e2 80 9a then two Latin-1-supplement runes), so the Go strings really
are these three-character sequences. -/
def uncheckedGlyph : Str := [Char.ofNat 0x201A, Char.ofNat 0xF2, Char.ofNat 0xEA]

/-- Checked-box glyph string (bytes e2 80 9a c3 b2 c3 ab). -/
def checkedGlyph : Str := [Char.ofNat 0x201A, Char.ofNat 0xF2, Char.ofNat 0xEB]

/-- Bullet glyph string (bytes e2 80 9a c3 84 c2 a2). -/
def bulletGlyph : Str := [Char.ofNat 0x201A, Char.ofNat 0xC4, Char.ofNat 0xA2]

/-- Quote-bar glyph string (bytes e2 80 9a c3 ae c3 87). -/
def quoteGlyph : Str := [Char.ofNat 0x201A, Char.ofNat 0xEE, Char.ofNat 0xC7]

/-- Horizontal-rule glyph string (bytes e2 80 9a c3 ae c3 84),
the unit repeated by `strings.Repeat`. -/
def hrGlyph : Str := [Char.ofNat 0x201A, Char.ofNat 0xEE, Char.ofNat 0xC4]

/-- Step 1 of `RenderLine`: the two checkbox replacements. -/
def renderCheckbox (line : Str) : Str :=
  let l1 :=
    if containsSub line uncheckedMark then
      replaceFirst line uncheckedMark (redE ++ uncheckedGlyph ++ resetE)
    else line
  if containsSub l1 checkedMark then
    replaceFirst l1 checkedMark (greenE ++ checkedGlyph ++ resetE)
  else l1

/-- A match of `\*\*([^*]+)\*\*` at the head of the input: two stars, a
maximal nonempty star-free run (greedy `[^*]+` is deterministic here:
shortening it puts a non-star where `\*` must match), two stars.
Returns the capture and the remaining input after the match. -/
def boldAt : Str → Option (Str × Str)
  | '*' :: '*' :: rest =>
    let g := rest.takeWhile (fun c => !(c = '*'))
    if g = [] then none
    else
      match rest.drop g.length with
      | '*' :: '*' :: rest2 => some (g, rest2)
      | _ => none
  | _ => none

/-- `boldRegex.ReplaceAllString(line, Bold+"$1"+Reset)`: scan left to
right, replacing each leftmost non-overlapping match and continuing
after its end.  The fuel starts at the input length and strictly bounds
the number of steps (each step consumes at least one character), so it
is never exhausted. -/
def replaceAllBoldF : Nat → Str → Str
  | 0, s => s
  | _ + 1, [] => []
  | fuel + 1, c :: rest =>
    match boldAt (c :: rest) with
    | some (g, after) => boldE ++ g ++ resetE ++ replaceAllBoldF fuel after
    | none => c :: replaceAllBoldF fuel rest

/-- The bold pass of `RenderLine`. -/
def replaceAllBold (s : Str) : Str := replaceAllBoldF s.length s

/-- A match of `\*([^*]+)\*(?:[^*]|$)` at the head of the input: star,
maximal nonempty star-free capture, star, then either one non-star
character (preferred, consumed by the match) or end of input.  Returns
the capture and the remaining input. -/
def italCore : Str → Option (Str × Str)
  | '*' :: rest =>
    let g := rest.takeWhile (fun c => !(c = '*'))
    if g = [] then none
    else
      match rest.drop g.length with
      | '*' :: tail =>
        match tail with
        | [] => some (g, [])
        | c2 :: tail2 => if c2 = '*' then none else some (g, tail2)
      | _ => none
  | _ => none

/-- `italicRegex.ReplaceAllString(line, Italic+"$1"+Reset)` for
`(?:^|[^*])\*([^*]+)\*(?:[^*]|$)`: at the start of the text the empty
`^` alternative is preferred, so the match may begin directly with the
star; at any other position the match must consume one non-star lead
character, which the replacement deletes together with the one trailing
non-star character.  Scanning resumes after each match end. -/
def replaceAllItalF : Nat → Bool → Str → Str
  | 0, _, s => s
  | _ + 1, _, [] => []
  | fuel + 1, atStart, c :: rest =>
    match if atStart then italCore (c :: rest) else none with
    | some (g, after) => italicE ++ g ++ resetE ++ replaceAllItalF fuel false after
    | none =>
      if c = '*' then c :: replaceAllItalF fuel false rest
      else
        match italCore rest with
        | some (g, after) => italicE ++ g ++ resetE ++ replaceAllItalF fuel false after
        | none => c :: replaceAllItalF fuel false rest

/-- The italic pass of `RenderLine`. -/
def replaceAllItal (s : Str) : Str := replaceAllItalF s.length true s

/-- A match of the inline-code pattern at the head of the input:
backtick, maximal nonempty backtick-free capture, backtick. -/
def codeAt : Str → Option (Str × Str)
  | '`' :: rest =>
    let g := rest.takeWhile (fun c => !(c = '`'))
    if g = [] then none
    else
      match rest.drop g.length with
      | '`' :: tail => some (g, tail)
      | _ => none
  | _ => none

/-- `codeRegex.ReplaceAllString(line, BgBlack+Cyan+"$1"+Reset)`. -/
def replaceAllCodeF : Nat → Str → Str
  | 0, s => s
  | _ + 1, [] => []
  | fuel + 1, c :: rest =>
    match codeAt (c :: rest) with
    | some (g, after) => bgBlackE ++ cyanE ++ g ++ resetE ++ replaceAllCodeF fuel after
    | none => c :: replaceAllCodeF fuel rest

/-- The inline-code pass of `RenderLine`. -/
def replaceAllCode (s : Str) : Str := replaceAllCodeF s.length s

/-- Step 5 of `RenderLine`: the bullet replacement, guarded against
lines already holding a rendered checkbox glyph. -/
def renderBullet (line : Str) : Str :=
  if startsWith (trimS line) (strOf ("- ")) && !containsSub line uncheckedGlyph &&
      !containsSub line checkedGlyph then
    replaceFirst line (strOf ("- ")) (yellowE ++ bulletGlyph ++ [' '] ++ resetE)
  else line

/-- Step 6 of `RenderLine`:
`numRegex.ReplaceAllString(line, "$1"+Cyan+"$2."+Reset+" ")` for the
anchored `^(\s*)(\d+)\.\s` — at most the leading match fires, its `\s`
character being replaced by a literal space. -/
def renderNum (line : Str) : Str :=
  let w := line.takeWhile isReWs
  let r := line.drop w.length
  let d := r.takeWhile isDigit
  if d = [] then line
  else
    match r.drop d.length with
    | '.' :: c :: tail =>
      if isReWs c then w ++ cyanE ++ d ++ ['.'] ++ resetE ++ (' ' :: tail) else line
    | _ => line

/-- Step 7 of `RenderLine`: the block-quote rewrite. -/
def renderQuote (line : Str) : Str :=
  if startsWith (trimS line) quotePat then
    dimE ++ quoteGlyph ++ [' '] ++ trimPre (trimS line) (strOf ("> ")) ++ resetE
  else line

/-- Step 9 of `RenderLine`: the table-separator dimming. -/
def renderTable (line : Str) : Str :=
  if containsSub line (strOf ("|")) && containsSub line (strOf ("---")) then
    dimE ++ line ++ resetE
  else line

/-- `RenderLine`: the full pipeline.  Step 8 (horizontal rule) calls
`strings.Repeat("─", termWidth-4)`, which panics for a negative count,
hence the `Option`: `none` exactly when the trimmed line at that point
is the rule marker and `termWidth < 4`. -/
def renderLine (line : Str) (termWidth : Int) : Option Str :=
  let l7 := renderQuote (renderNum (renderBullet
    (replaceAllCode (replaceAllItal (replaceAllBold (renderCheckbox line))))))
  let l8opt :=
    if trimS l7 = strOf ("---") then
      if termWidth < 4 then none
      else some (dimE ++ (List.replicate (termWidth - 4).toNat hrGlyph).flatten ++ resetE)
    else some l7
  l8opt.map renderTable

/-- A one-section state whose content line carries BOTH a checked and an
unchecked marker (checked first). -/
def cApp2 : App :=
  { sections := [⟨strOf ("T"), strOf ("- [x] a - [ ] b"), 1, 0⟩],
    currentIdx := 0, fileLines := [] }

/-- A one-section state whose content line carries exactly one
(unchecked) marker. -/
def cApp2w : App :=
  { sections := [⟨strOf ("T"), strOf ("- [ ] task"), 1, 0⟩],
    currentIdx := 0, fileLines := [] }

/-- A two-section state immediately after a parse of its four backing
lines, with the first section's in-memory content grown from one line
to three (as a note insertion does). -/
def cApp1 : App :=
  { sections := [⟨strOf ("A"), strOf ("x\nnew1\nnew2"), 1, 0⟩, ⟨strOf ("B"), strOf ("y"), 2, 2⟩],
    currentIdx := 0,
    fileLines := [strOf ("# A"), strOf ("x"), strOf ("## B"), strOf ("y")] }

/-- Same shape as `cApp1` with different grown content, for the
round-trip analysis. -/
def cApp5 : App :=
  { sections := [⟨strOf ("A"), strOf ("x\na\nb"), 1, 0⟩, ⟨strOf ("B"), strOf ("y"), 2, 2⟩],
    currentIdx := 0,
    fileLines := [strOf ("# A"), strOf ("x"), strOf ("## B"), strOf ("y")] }

/-- C8: `gotoSection` with an index outside `[0, len(sections))` reports
failure and leaves the whole state (in particular the cursor) unchanged;
with an index inside the range it reports success and sets the cursor to
that index, hence calling it twice with the same valid index leaves the
cursor identical to calling it once. -/
theorem gotoSection_spec (a : App) (idx : Int) :
    (¬ (0 ≤ idx ∧ idx < (a.sections.length : Int)) → gotoSection a idx = (false, a)) ∧
    ((0 ≤ idx ∧ idx < (a.sections.length : Int)) →
      gotoSection a idx = (true, { a with currentIdx := idx }) ∧
      (gotoSection (gotoSection a idx).2 idx).2 = (gotoSection a idx).2) := by
  constructor
  · intro h
    simp [gotoSection, h]
  · intro h
    refine ⟨by simp [gotoSection, h], ?_⟩
    simp [gotoSection, h]

/-- Closed instance of `gotoSection_spec`: on a two-section state,
index -1 and index 2 fail without moving the cursor, index 1 succeeds,
and repeating index 1 changes nothing further. -/
theorem gotoSection_spec_witness :
    gotoSection wApp8 (-1) = (false, wApp8) ∧
    gotoSection wApp8 2 = (false, wApp8) ∧
    gotoSection wApp8 1 = (true, { wApp8 with currentIdx := 1 }) ∧
    (gotoSection (gotoSection wApp8 1).2 1).2 = (gotoSection wApp8 1).2 :=
  ⟨(gotoSection_spec wApp8 (-1)).1 (by decide),
   (gotoSection_spec wApp8 2).1 (by decide),
   ((gotoSection_spec wApp8 1).2 (by decide)).1,
   ((gotoSection_spec wApp8 1).2 (by decide)).2⟩

/-- C9: with a current section present, `scrollDown` succeeds exactly
when `scrollOffset + pageSize < totalLines`, in which case the offset
advances by exactly 3 (and `pageSize` is untouched), and otherwise the
renderer is unchanged; `scrollUp` succeeds exactly when the offset is
positive, in which case the offset retreats by 3 clamped at 0, and at
offset 0 it is a no-op reporting failure. -/
theorem scroll_spec (a : App) (r : Renderer) (sec : Section)
    (h : getCurrentSection a = some sec) :
    (((scrollDown a r).1 = true ↔
        r.scrollOffset + r.pageSize < ((splitNl sec.content).length : Int)) ∧
      ((scrollDown a r).1 = true →
        (scrollDown a r).2.scrollOffset = r.scrollOffset + 3 ∧
        (scrollDown a r).2.pageSize = r.pageSize) ∧
      ((scrollDown a r).1 = false → (scrollDown a r).2 = r)) ∧
    (((scrollUp r).1 = true ↔ 0 < r.scrollOffset) ∧
      ((scrollUp r).1 = true →
        (scrollUp r).2.scrollOffset = max 0 (r.scrollOffset - 3) ∧
        (scrollUp r).2.pageSize = r.pageSize) ∧
      ((scrollUp r).1 = false → (scrollUp r).2 = r)) := by
  constructor
  · by_cases hlt : r.scrollOffset + r.pageSize < ((splitNl sec.content).length : Int) <;>
      simp [scrollDown, h, hlt]
  · by_cases hpos : 0 < r.scrollOffset
    · refine ⟨by simp [scrollUp, hpos], fun _ => ⟨?_, by simp [scrollUp, hpos]⟩, ?_⟩
      · simp only [scrollUp, hpos, if_true]
        by_cases hneg : r.scrollOffset - 3 < 0 <;> simp [hneg] <;> omega
      · intro hfalse
        simp [scrollUp, hpos] at hfalse
    · simp [scrollUp, hpos]

/-- Closed instance of `scroll_spec` on a 1-line-content state: at
offset 0 with page size 1 and 1 content line, `scrollDown` refuses (no
further page) and `scrollUp` refuses (already at top), both leaving the
renderer unchanged. -/
theorem scroll_spec_witness :
    getCurrentSection wApp8 = some ⟨strOf ("A"), strOf ("x"), 1, 0⟩ ∧
    (scrollDown wApp8 ⟨0, 1⟩).1 = false ∧
    (scrollDown wApp8 ⟨0, 1⟩).2 = ⟨0, 1⟩ ∧
    (scrollUp ⟨0, 1⟩).1 = false ∧
    (scrollUp ⟨0, 1⟩).2 = ⟨0, 1⟩ := by
  have hs : getCurrentSection wApp8 = some ⟨strOf ("A"), strOf ("x"), 1, 0⟩ := by decide
  have h := scroll_spec wApp8 ⟨0, 1⟩ ⟨strOf ("A"), strOf ("x"), 1, 0⟩ hs
  refine ⟨hs, ?_, ?_, ?_, ?_⟩
  · rcases hb : (scrollDown wApp8 ⟨0, 1⟩).1 with _ | _
    · rfl
    · exact absurd (h.1.1.mp hb) (by decide)
  · exact h.1.2.2 (by decide)
  · rcases hb : (scrollUp (⟨0, 1⟩ : Renderer)).1 with _ | _
    · rfl
    · exact absurd (h.2.1.mp hb) (by decide)
  · exact h.2.2.2 (by decide)

theorem map_line_parseStep (i : Nat) (l : Str) (st : ParseAcc) :
    (closeCur (parseStep i l st)).map Section.line =
      (closeCur st).map Section.line ++ (if (headerMatch l).isSome then [i] else []) := by
  rcases h : headerMatch l with _ | ⟨lv, t⟩ <;>
    rcases hcur : st.cur with _ | ⟨t0, lv0, ln0⟩ <;>
      simp [parseStep, closeCur, h, hcur]

theorem parseLoop_map_line (ls : List Str) : ∀ (i : Nat) (st : ParseAcc),
    (closeCur (parseLoop i ls st)).map Section.line =
      (closeCur st).map Section.line ++ headerIdxs i ls := by
  induction ls with
  | nil => intro i st; simp [parseLoop, headerIdxs]
  | cons l ls ih =>
    intro i st
    rw [parseLoop, ih, map_line_parseStep, headerIdxs, List.append_assoc]

theorem parseLoop_good (lines ls : List Str) : ∀ (i : Nat) (st : ParseAcc),
    ls = lines.drop i →
    (∀ s ∈ closeCur st,
      ∃ l, lines.get? s.line = some l ∧ headerMatch l = some (s.level, s.title)) →
    ∀ s ∈ closeCur (parseLoop i ls st),
      ∃ l, lines.get? s.line = some l ∧ headerMatch l = some (s.level, s.title) := by
  induction ls with
  | nil => intro i st _ hst; simpa [parseLoop] using hst
  | cons l ls ih =>
    intro i st hdrop hst
    rw [parseLoop]
    have hget : lines.get? i = some l := by
      have : (lines.drop i).get? 0 = some l := by rw [← hdrop]; rfl
      simpa using this
    have hdrop1 : ls = lines.drop (i + 1) := by
      have : lines.drop (i + 1) = (lines.drop i).drop 1 := by
        rw [List.drop_drop]
      rw [this, ← hdrop]
      rfl
    refine ih (i + 1) (parseStep i l st) hdrop1 ?_
    intro s hs
    rcases h : headerMatch l with _ | ⟨lv, t⟩
    · rcases hcur : st.cur with _ | ⟨t0, lv0, ln0⟩
      · exact hst s (by simpa [parseStep, h, hcur] using hs)
      · simp only [parseStep, h, hcur, closeCur] at hs
        rcases List.mem_append.mp hs with hmem | hlast
        · exact hst s (by simp [closeCur, hcur, List.mem_append]; exact Or.inl hmem)
        · have hold : (⟨t0, joinNl st.contentLines, lv0, ln0⟩ : Section) ∈ closeCur st := by
            simp [closeCur, hcur]
          rcases hst _ hold with ⟨lw, hw1, hw2⟩
          rcases List.mem_singleton.mp hlast with rfl
          exact ⟨lw, hw1, hw2⟩
    · simp only [parseStep, h, closeCur] at hs
      rcases List.mem_append.mp hs with hmem | hlast
      · exact hst s hmem
      · rcases List.mem_singleton.mp hlast with rfl
        exact ⟨l, hget, h⟩

theorem parseLoop_incr (ls : List Str) : ∀ (i : Nat) (st : ParseAcc),
    ((closeCur st).map Section.line).Pairwise (· < ·) →
    (∀ x ∈ (closeCur st).map Section.line, x < i) →
    ((closeCur (parseLoop i ls st)).map Section.line).Pairwise (· < ·) := by
  induction ls with
  | nil => intro i st h _; simpa [parseLoop] using h
  | cons l ls ih =>
    intro i st hpw hbd
    rw [parseLoop]
    refine ih (i + 1) (parseStep i l st) ?_ ?_
    · rw [map_line_parseStep]
      by_cases hh : (headerMatch l).isSome = true
      · rw [if_pos hh, List.pairwise_append]
        refine ⟨hpw, by simp, ?_⟩
        intro a ha b hb
        simp only [List.mem_singleton] at hb
        subst hb
        exact hbd a ha
      · rw [if_neg hh]
        simpa using hpw
    · intro x hx
      rw [map_line_parseStep] at hx
      rcases List.mem_append.mp hx with hmem | hif
      · exact Nat.lt_succ_of_lt (hbd x hmem)
      · by_cases hh : (headerMatch l).isSome = true <;> simp [hh] at hif
        omega

theorem headerIdxs_length (ls : List Str) : ∀ i : Nat,
    (headerIdxs i ls).length = ls.countP (fun l => (headerMatch l).isSome) := by
  induction ls with
  | nil => intro i; simp [headerIdxs]
  | cons l ls ih =>
    intro i
    by_cases h : (headerMatch l).isSome = true <;>
      simp [headerIdxs, h, ih, List.countP_cons]

theorem headerMatch_level (l : Str) (lv : Nat) (t : Str)
    (h : headerMatch l = some (lv, t)) : lv = hashRun l ∧ 1 ≤ lv ∧ lv ≤ 4 := by
  simp only [headerMatch] at h
  split_ifs at h with h1 h2 h3
  all_goals
    simp only [Option.some.injEq, Prod.mk.injEq] at h
  all_goals
    exact ⟨h.1.symm, h.1 ▸ h1.1, h.1 ▸ h1.2.1⟩

/-- C10: immediately after a parse, the section start lines are strictly
increasing in list order; each start line is a valid index of the
backing line array whose line matches the header pattern, with the
marker-run length of that line equal to the section level, which lies in
1..4; and the number of sections equals the number of header lines. -/
theorem parse_invariants (lines : List Str) :
    ((parseSections lines).map Section.line).Pairwise (· < ·) ∧
    (∀ s ∈ parseSections lines, s.line < lines.length ∧
      ∃ l, lines.get? s.line = some l ∧ (headerMatch l).isSome ∧
        s.level = hashRun l ∧ 1 ≤ s.level ∧ s.level ≤ 4) ∧
    (parseSections lines).length = lines.countP (fun l => (headerMatch l).isSome) := by
  refine ⟨?_, ?_, ?_⟩
  · exact parseLoop_incr lines 0 ⟨[], none, []⟩ (by simp [closeCur]) (by simp [closeCur])
  · intro s hs
    have hgood := parseLoop_good lines lines 0 ⟨[], none, []⟩ (by simp)
      (by simp [closeCur]) s hs
    rcases hgood with ⟨l, hget, hmatch⟩
    have hlt : s.line < lines.length := by
      rcases List.get?_eq_some.mp hget with ⟨hb, _⟩
      exact hb
    rcases headerMatch_level l s.level s.title hmatch with ⟨he, h1, h4⟩
    exact ⟨hlt, l, hget, by simp [hmatch], he, h1, h4⟩
  · have hmap := parseLoop_map_line lines 0 ⟨[], none, []⟩
    have : ((parseSections lines).map Section.line).length =
        (headerIdxs 0 lines).length := by
      rw [parseSections, hmap]; simp [closeCur]
    simpa [headerIdxs_length] using this

theorem dropWhile_eq_drop_takeWhile (p : Char → Bool) (l : Str) :
    l.dropWhile p = l.drop (l.takeWhile p).length := by
  induction l with
  | nil => rfl
  | cons c cs ih =>
    by_cases h : p c <;> simp [List.takeWhile_cons, List.dropWhile_cons, h, ih]

theorem takeWhile_length_eq_iff (p : Char → Bool) (l : Str) :
    (l.takeWhile p).length = l.length ↔ l.all p = true := by
  induction l with
  | nil => simp
  | cons c cs ih =>
    by_cases h : p c
    · simpa [List.takeWhile_cons, h] using ih
    · simp only [List.takeWhile_cons, h, if_false, Bool.false_eq_true, List.all_cons,
        Bool.and_eq_true]
      constructor
      · intro hlen
        simp at hlen
      · rintro ⟨hpc, -⟩
        exact absurd hpc (by simp [h])

theorem takeWhile_hashRun (l : Str) :
    l.takeWhile (fun c => c = '#') = List.replicate (hashRun l) '#' := by
  apply List.eq_replicate_iff.mpr
  refine ⟨rfl, ?_⟩
  intro b hb
  have hp := List.mem_takeWhile_imp hb
  exact of_decide_eq_true hp

theorem hashRun_replicate (k : Nat) (c : Char) (rest : Str) (hc : ¬ c = '#') :
    hashRun (List.replicate k '#' ++ c :: rest) = k := by
  induction k with
  | zero => simp [hashRun, List.takeWhile_cons, hc]
  | succ n ih => simpa [hashRun, List.replicate_succ, List.takeWhile_cons] using ih

theorem isReWs_ne_hash (c : Char) (hc : isReWs c = true) : ¬ c = '#' := by
  rcases Bool.or_eq_true_iff.mp hc with h | h
  · rcases Bool.or_eq_true_iff.mp h with h | h
    · rcases Bool.or_eq_true_iff.mp h with h | h
      · rcases Bool.or_eq_true_iff.mp h with h | h
        · intro he; rw [he] at h; exact absurd (of_decide_eq_true h) (by decide)
        · intro he; rw [he] at h; exact absurd (of_decide_eq_true h) (by decide)
      · intro he; rw [he] at h; exact absurd (of_decide_eq_true h) (by decide)
    · intro he; rw [he] at h; exact absurd (of_decide_eq_true h) (by decide)
  · intro he; rw [he] at h; exact absurd (of_decide_eq_true h) (by decide)

theorem headerMatch_eq_some (k : Nat) (c : Char) (rest : Str)
    (h1 : 1 ≤ k) (h4 : k ≤ 4) (hc : isReWs c = true) (hr : rest ≠ []) :
    headerMatch (List.replicate k '#' ++ c :: rest) =
      some (k, if (c :: rest).all isReWs = true then (c :: rest).drop rest.length
               else (c :: rest).dropWhile isReWs) := by
  have hrun : hashRun (List.replicate k '#' ++ c :: rest) = k :=
    hashRun_replicate k c rest (isReWs_ne_hash c hc)
  have hdrop : (List.replicate k '#' ++ c :: rest).drop k = c :: rest := by
    have h := List.drop_left (List.replicate k '#') (c :: rest)
    rwa [List.length_replicate] at h
  have hw1 : 1 ≤ ((c :: rest).takeWhile isReWs).length := by
    rw [List.takeWhile_cons, if_pos hc]
    simp
  have hrpos : 0 < rest.length := List.length_pos.mpr hr
  simp only [headerMatch, hrun, hdrop]
  rw [if_pos ⟨h1, h4, hw1⟩]
  by_cases hall : (c :: rest).all isReWs = true
  · have hlen : ((c :: rest).takeWhile isReWs).length = (c :: rest).length :=
      (takeWhile_length_eq_iff isReWs (c :: rest)).mpr hall
    rw [if_neg (by omega), if_pos (by simp only [List.length_cons]; omega), if_pos hall]
    simp
  · have hlen : ((c :: rest).takeWhile isReWs).length ≠ (c :: rest).length := by
      intro he
      exact hall ((takeWhile_length_eq_iff isReWs (c :: rest)).mp he)
    have hle : ((c :: rest).takeWhile isReWs).length ≤ (c :: rest).length :=
      (List.takeWhile_sublist isReWs).length_le
    rw [if_pos (by omega), if_neg (by simp [hall])]
    rw [dropWhile_eq_drop_takeWhile]

theorem headerMatch_isSome_cond (l : Str) :
    (headerMatch l).isSome = true ↔
      1 ≤ hashRun l ∧ hashRun l ≤ 4 ∧
        1 ≤ ((l.drop (hashRun l)).takeWhile isReWs).length ∧
        2 ≤ (l.drop (hashRun l)).length := by
  simp only [headerMatch]
  split_ifs with h1 h2 h3
  · simp only [Option.isSome_some, true_iff]
    obtain ⟨ha, hb, hw⟩ := h1
    exact ⟨ha, hb, hw, by omega⟩
  · simp only [Option.isSome_some, true_iff]
    obtain ⟨ha, hb, hw⟩ := h1
    exact ⟨ha, hb, hw, h3⟩
  · simp only [Option.isSome_none, Bool.false_eq_true, false_iff]
    intro hcon
    exact h3 hcon.2.2.2
  · simp only [Option.isSome_none, Bool.false_eq_true, false_iff]
    intro hcon
    exact h1 ⟨hcon.1, hcon.2.1, hcon.2.2.1⟩

theorem split_l_at_hashRun (l : Str) :
    l = List.replicate (hashRun l) '#' ++ l.drop (hashRun l) := by
  conv_lhs => rw [← List.takeWhile_append_dropWhile (fun c => c = '#') l]
  rw [takeWhile_hashRun, dropWhile_eq_drop_takeWhile, takeWhile_hashRun,
    List.length_replicate]

theorem headerMatch_isSome_iff (l : Str) :
    (headerMatch l).isSome = true ↔
      ∃ k c rest, 1 ≤ k ∧ k ≤ 4 ∧ isReWs c = true ∧ rest ≠ [] ∧
        l = List.replicate k '#' ++ c :: rest := by
  constructor
  · intro h
    obtain ⟨ha, hb, hw, hlen⟩ := (headerMatch_isSome_cond l).mp h
    rcases hd : l.drop (hashRun l) with _ | ⟨c, rest⟩
    · rw [hd] at hlen
      simp at hlen
    · refine ⟨hashRun l, c, rest, ha, hb, ?_, ?_, ?_⟩
      · rw [hd] at hw
        by_cases hpc : isReWs c = true
        · exact hpc
        · rw [List.takeWhile_cons, if_neg hpc] at hw
          simp at hw
      · intro hre
        subst hre
        rw [hd] at hlen
        simp at hlen
      · rw [← hd]
        exact split_l_at_hashRun l
  · rintro ⟨k, c, rest, h1, h4, hc, hr, rfl⟩
    rw [headerMatch_eq_some k c rest h1 h4 hc hr]
    rfl

theorem parseSections_single (l : Str) :
    parseSections [l] =
      match headerMatch l with
      | some (lv, t) => [⟨t, [], lv, 0⟩]
      | none => [] := by
  rcases h : headerMatch l with _ | ⟨lv, t⟩ <;>
    simp [parseSections, parseLoop, parseStep, closeCur, joinNl, h]

/-- C4 (amended): the parser classifies a line as a header iff it is
1..4 marker characters, then one `\s` whitespace character, then at
least one further character of any kind (so a line whose remainder
after the marker run is entirely whitespace, but at least two
characters long, IS a header); the level is the marker-run length; the
title is the remainder with its maximal run of leading whitespace
removed, except that a remainder that is whitespace only yields its
last character, and trailing whitespace is kept. -/
theorem parse_header_classification (l : Str) :
    ((parseSections [l]).length = 1 ↔
      ∃ k c rest, 1 ≤ k ∧ k ≤ 4 ∧ isReWs c = true ∧ rest ≠ [] ∧
        l = List.replicate k '#' ++ c :: rest) ∧
    (∀ k c rest, 1 ≤ k → k ≤ 4 → isReWs c = true → rest ≠ [] →
      l = List.replicate k '#' ++ c :: rest →
      parseSections [l] =
        [⟨if (c :: rest).all isReWs = true then (c :: rest).drop rest.length
          else (c :: rest).dropWhile isReWs, [], k, 0⟩]) := by
  constructor
  · rw [← headerMatch_isSome_iff]
    rw [parseSections_single]
    rcases h : headerMatch l with _ | ⟨lv, t⟩ <;> simp [h]
  · intro k c rest h1 h4 hc hr hl
    rw [parseSections_single, hl, headerMatch_eq_some k c rest h1 h4 hc hr]

/-- C4 counterexample: the line of a marker and two spaces, whose
remainder after the marker run is only whitespace, IS parsed as a
header (with the single space as title), and the title of a header
line with trailing whitespace is NOT trimmed on the right. -/
theorem parse_header_counterexample :
    parseSections [strOf ("#  ")] = [⟨strOf (" "), [], 1, 0⟩] ∧
    parseSections [strOf ("# x ")] = [⟨strOf ("x "), [], 1, 0⟩] := by
  exact ⟨by decide, by decide⟩

/-- Closed instance of `parse_header_classification`: the line with two
markers, a space and a two-character title parses to exactly that
section. -/
theorem parse_header_classification_witness :
    parseSections [strOf ("## ab")] = [⟨strOf ("ab"), [], 2, 0⟩] := by
  have h := (parse_header_classification (strOf ("## ab"))).2 2 ' ' (strOf ("ab"))
    (by decide) (by decide) (by decide) (by decide) (by decide)
  exact h.trans (by decide)

theorem extract_fold_neutral (ls notes : List Str)
    (h : ∀ l ∈ ls, startsWith (trimS l) noteStartPat = false) :
    ls.foldl extractStep ⟨notes, [], false⟩ = ⟨notes, [], false⟩ := by
  induction ls with
  | nil => rfl
  | cons l ls ih =>
    have hl := h l (by simp)
    have hstep : extractStep ⟨notes, [], false⟩ l = ⟨notes, [], false⟩ := by
      simp [extractStep, hl]
    rw [List.foldl_cons, hstep]
    exact ih fun x hx => h x (by simp [hx])

theorem extract_fold_block (tl : List Str) : ∀ (notes cur : List Str),
    (∀ l ∈ tl, startsWith (trimS l) quotePat = true ∧
      startsWith (trimS l) noteStartPat = false) →
    tl.foldl extractStep ⟨notes, cur, true⟩ = ⟨notes, cur ++ tl.map trimS, true⟩ := by
  induction tl with
  | nil => intro notes cur _; simp
  | cons l tl ih =>
    intro notes cur h
    obtain ⟨hq, hp⟩ := h l (by simp)
    have hstep : extractStep ⟨notes, cur, true⟩ l = ⟨notes, cur ++ [trimS l], true⟩ := by
      simp [extractStep, hq, hp]
    rw [List.foldl_cons, hstep, ih notes (cur ++ [trimS l]) (fun x hx => h x (by simp [hx]))]
    simp

theorem extract_step_start (notes : List Str) (l : Str)
    (hl : startsWith (trimS l) noteStartPat = true) :
    extractStep ⟨notes, [], false⟩ l = ⟨notes, [trimS l], true⟩ := by
  simp [extractStep, hl]

theorem extract_step_blank (notes cur : List Str) (hcur : cur ≠ []) :
    extractStep ⟨notes, cur, true⟩ [] = ⟨notes ++ [trimS (joinNl cur)], [], false⟩ := by
  have h1 : startsWith (trimS ([] : Str)) noteStartPat = false := by decide
  have h2 : startsWith (trimS ([] : Str)) quotePat = false := by decide
  simp [extractStep, h1, h2, hcur]

theorem extract_step_term (notes cur : List Str) (p0 : Str) (hcur : cur ≠ [])
    (hp : startsWith (trimS p0) noteStartPat = false)
    (hq : startsWith (trimS p0) quotePat = false) :
    extractStep ⟨notes, cur, true⟩ p0 = ⟨notes ++ [trimS (joinNl cur)], [], false⟩ := by
  have e1 : startsWith ([] : Str) noteStartPat = false := by decide
  have e2 : startsWith ([] : Str) quotePat = false := by decide
  by_cases hb : trimS p0 = [] <;> simp [extractStep, hp, hq, hb, hcur, e1, e2]

/-- C7: on a content whose lines decompose into a prefix, a well-formed
note block, a blank line, a middle stretch, a second well-formed note
block and a terminating remainder — each block a line whose trimmed form
starts with the note-label prefix followed by quote-prefixed
continuation lines, the prefix/middle/remainder free of note-label
lines, and the remainder empty or opening with a non-quote line —
`extractNotes` returns exactly the two blocks, in document order, each
the join of its per-line-trimmed lines (trimmed of surrounding
whitespace); the single blank line after the first block always ends
it, even when the middle stretch opens with a quote line. -/
theorem extractNotes_two_blocks (content : Str) (pre mid post t1 t2 : List Str) (h1 h2 : Str)
    (hsplit : splitNl content = pre ++ (h1 :: t1) ++ ([] :: mid) ++ (h2 :: t2) ++ post)
    (hpre : ∀ l ∈ pre, startsWith (trimS l) noteStartPat = false)
    (hmid : ∀ l ∈ mid, startsWith (trimS l) noteStartPat = false)
    (hpost : ∀ l ∈ post, startsWith (trimS l) noteStartPat = false)
    (hh1 : startsWith (trimS h1) noteStartPat = true)
    (hh2 : startsWith (trimS h2) noteStartPat = true)
    (ht1 : ∀ l ∈ t1, startsWith (trimS l) quotePat = true ∧
      startsWith (trimS l) noteStartPat = false)
    (ht2 : ∀ l ∈ t2, startsWith (trimS l) quotePat = true ∧
      startsWith (trimS l) noteStartPat = false)
    (hterm : ∀ p0 ∈ post.head?, startsWith (trimS p0) quotePat = false) :
    extractNotes content =
      [trimS (joinNl ((h1 :: t1).map trimS)), trimS (joinNl ((h2 :: t2).map trimS))] := by
  unfold extractNotes
  rw [hsplit]
  simp only [List.foldl_append, List.foldl_cons]
  rw [extract_fold_neutral pre [] hpre]
  rw [extract_step_start [] h1 hh1]
  rw [extract_fold_block t1 [] [trimS h1] ht1]
  rw [extract_step_blank [] ([trimS h1] ++ t1.map trimS) (by simp)]
  rw [extract_fold_neutral mid _ hmid]
  rw [extract_step_start _ h2 hh2]
  rw [extract_fold_block t2 _ [trimS h2] ht2]
  rcases post with _ | ⟨p0, prest⟩
  · simp only [List.foldl_nil]
    simp [List.map_cons]
  · have hq0 : startsWith (trimS p0) quotePat = false := hterm p0 (by simp)
    have hp0 : startsWith (trimS p0) noteStartPat = false := hpost p0 (by simp)
    rw [List.foldl_cons]
    rw [extract_step_term _ ([trimS h2] ++ t2.map trimS) p0 (by simp) hp0 hq0]
    rw [extract_fold_neutral prest _ (fun x hx => hpost x (by simp [hx]))]
    simp [List.map_cons]

/-- Closed instance of `extractNotes_two_blocks`: a content with two
well-formed note blocks (the first two lines long) yields exactly the
two blocks. -/
theorem extractNotes_two_blocks_witness :
    extractNotes (strOf ("intro\n\n> **Ghi chú [2025-01-01 10:00]:** a\n> b\n\nmid\n> **Ghi chú [2025-01-02 11:00]:** c\nend")) =
      [strOf ("> **Ghi chú [2025-01-01 10:00]:** a\n> b"),
       strOf ("> **Ghi chú [2025-01-02 11:00]:** c")] := by
  have h := extractNotes_two_blocks
    (strOf ("intro\n\n> **Ghi chú [2025-01-01 10:00]:** a\n> b\n\nmid\n> **Ghi chú [2025-01-02 11:00]:** c\nend"))
    [strOf ("intro"), []] [strOf ("mid")] [strOf ("end")]
    [strOf ("> b")] []
    (strOf ("> **Ghi chú [2025-01-01 10:00]:** a"))
    (strOf ("> **Ghi chú [2025-01-02 11:00]:** c"))
    (by decide) (by decide) (by decide) (by decide) (by decide) (by decide)
    (by decide) (by decide) (by decide)
  exact h.trans (by decide)

theorem remove_fold_id (fnl : Str) (A : List Str)
    (hA : ∀ l ∈ A,
      (containsSub (trimS l) noteContainsPat && containsSub fnl ((trimS l).drop 2)) = false) :
    removeLoop fnl A false = A := by
  induction A with
  | nil => rfl
  | cons l A ih =>
    have hl := hA l (by simp)
    simp only [removeLoop, hl, Bool.false_eq_true, if_false, Bool.false_and]
    rw [ih fun x hx => hA x (by simp [hx])]

theorem remove_fold_neutral (fnl : Str) (A rest : List Str)
    (hA : ∀ l ∈ A,
      (containsSub (trimS l) noteContainsPat && containsSub fnl ((trimS l).drop 2)) = false) :
    removeLoop fnl (A ++ rest) false = A ++ removeLoop fnl rest false := by
  induction A with
  | nil => rfl
  | cons l A ih =>
    have hl := hA l (by simp)
    simp only [List.cons_append, removeLoop, hl, Bool.false_eq_true, if_false, Bool.false_and]
    exact congrArg (fun x => l :: x) (ih fun x hx => hA x (by simp [hx]))

theorem remove_fold_skip (fnl : Str) (tT rest : List Str)
    (htT : ∀ l ∈ tT, startsWith (trimS l) quotePat = true) :
    removeLoop fnl (tT ++ rest) true = removeLoop fnl rest true := by
  induction tT with
  | nil => rfl
  | cons l tT ih =>
    have hq := htT l (by simp)
    by_cases htr :
        (containsSub (trimS l) noteContainsPat && containsSub fnl ((trimS l).drop 2)) = true
    · simp only [List.cons_append, removeLoop, htr, if_true]
      exact ih fun x hx => htT x (by simp [hx])
    · simp only [List.cons_append, removeLoop, htr, if_false, Bool.true_and, hq, if_true]
      exact ih fun x hx => htT x (by simp [hx])

theorem remove_step_trigger (fnl : Str) (l : Str) (rest : List Str) (skip : Bool)
    (htr : (containsSub (trimS l) noteContainsPat && containsSub fnl ((trimS l).drop 2)) = true) :
    removeLoop fnl (l :: rest) skip = removeLoop fnl rest true := by
  simp only [removeLoop, htr, if_true]

theorem remove_step_term (fnl : Str) (p0 : Str) (prest : List Str)
    (htr : (containsSub (trimS p0) noteContainsPat && containsSub fnl ((trimS p0).drop 2)) = false)
    (hq : startsWith (trimS p0) quotePat = false)
    (hne : trimS p0 ≠ []) :
    removeLoop fnl (p0 :: prest) true = p0 :: removeLoop fnl prest false := by
  simp only [removeLoop, htr, Bool.false_eq_true, if_false, Bool.true_and, hq, hne,
    decide_eq_true_eq]
  simp

/-- C6 (amended): on a content whose lines decompose into a stretch
`A`, the targeted note block (a matching head line followed by
quote-prefixed continuation lines) and a remainder `post` that is empty
or opens with a non-blank, non-quote line, where no line of `A` or
`post` matches the delete test against the target's first line,
`removeNoteFromContent` deletes exactly the target block's lines and
preserves `A` — which may contain other note blocks — and `post`
byte-for-byte, up to trimming of the overall result.  (When another
note block follows the target separated only by a blank line, it is
NOT preserved: the blank is absorbed and the quote lines of that block
keep being skipped — see the counterexample.) -/
theorem removeNote_frame (content noteToRemove : Str) (A post tT : List Str) (hT : Str)
    (fnl : Str)
    (hfnl : fnl = (match splitNl noteToRemove with | l :: _ => trimS l | [] => []))
    (hsplit : splitNl content = A ++ ((hT :: tT) ++ post))
    (htrig : (containsSub (trimS hT) noteContainsPat &&
      containsSub fnl ((trimS hT).drop 2)) = true)
    (hA : ∀ l ∈ A,
      (containsSub (trimS l) noteContainsPat && containsSub fnl ((trimS l).drop 2)) = false)
    (htT : ∀ l ∈ tT, startsWith (trimS l) quotePat = true)
    (hpost : ∀ l ∈ post,
      (containsSub (trimS l) noteContainsPat && containsSub fnl ((trimS l).drop 2)) = false)
    (hp0 : ∀ p0 ∈ post.head?, startsWith (trimS p0) quotePat = false ∧ trimS p0 ≠ []) :
    removeNoteFromContent content noteToRemove = trimS (joinNl (A ++ post)) := by
  simp only [removeNoteFromContent]
  rw [hsplit, ← hfnl]
  rw [remove_fold_neutral fnl A ((hT :: tT) ++ post) hA]
  rw [List.cons_append, remove_step_trigger fnl hT (tT ++ post) false htrig]
  rw [remove_fold_skip fnl tT post htT]
  rcases post with _ | ⟨p0, prest⟩
  · rfl
  · obtain ⟨hq0, hne0⟩ := hp0 p0 (by simp)
    rw [remove_step_term fnl p0 prest (hpost p0 (by simp)) hq0 hne0]
    rw [remove_fold_id fnl prest fun x hx => hpost x (by simp [hx])]

/-- C6 counterexample: a content with two distinct well-formed note
blocks separated by one blank line (as `extractNotes` confirms); yet
removing the FIRST block also deletes the second block entirely — the
result is the empty string, not a content still carrying the second
note. -/
theorem removeNote_counterexample :
    extractNotes (strOf ("> **Ghi chú [1]:** one\n\n> **Ghi chú [2]:** two")) =
      [strOf ("> **Ghi chú [1]:** one"), strOf ("> **Ghi chú [2]:** two")] ∧
    removeNoteFromContent (strOf ("> **Ghi chú [1]:** one\n\n> **Ghi chú [2]:** two"))
      (strOf ("> **Ghi chú [1]:** one")) = [] := by
  exact ⟨by decide, by decide⟩

/-- Closed instance of `removeNote_frame`: removing the SECOND of two
note blocks preserves the first one byte-for-byte. -/
theorem removeNote_frame_witness :
    removeNoteFromContent (strOf ("> **Ghi chú [1]:** one\n\n> **Ghi chú [2]:** two"))
      (strOf ("> **Ghi chú [2]:** two")) = strOf ("> **Ghi chú [1]:** one") := by
  have h := removeNote_frame
    (strOf ("> **Ghi chú [1]:** one\n\n> **Ghi chú [2]:** two"))
    (strOf ("> **Ghi chú [2]:** two"))
    [strOf ("> **Ghi chú [1]:** one"), []] [] []
    (strOf ("> **Ghi chú [2]:** two"))
    (strOf ("> **Ghi chú [2]:** two"))
    (by decide) (by decide) (by decide) (by decide) (by decide) (by decide) (by decide)
  exact h.trans (by decide)

theorem isPrefixOf_iff_getElem (pat : Str) : ∀ s : Str,
    (pat.isPrefixOf s = true ↔ ∀ k < pat.length, s[k]? = pat[k]?) := by
  induction pat with
  | nil => intro s; simp [List.isPrefixOf]
  | cons pc pt ih =>
    intro s
    cases s with
    | nil =>
      simp only [List.isPrefixOf]
      constructor
      · intro h; cases h
      · intro h
        have h0 := h 0 (by simp)
        simp at h0
    | cons sc st =>
      simp only [List.isPrefixOf, Bool.and_eq_true, beq_iff_eq]
      rw [ih st]
      constructor
      · rintro ⟨rfl, h⟩ k hk
        cases k with
        | zero => simp
        | succ k => simpa using h k (by simpa using hk)
      · intro h
        constructor
        · have h0 := h 0 (by simp)
          simp at h0
          exact h0.symm
        · intro k hk
          have hs := h (k + 1) (by simpa using hk)
          simpa using hs

theorem matchesAt_iff (s pat : Str) (j : Nat) :
    matchesAt s pat j ↔ ∀ k < pat.length, s[j + k]? = pat[k]? := by
  unfold matchesAt
  rw [isPrefixOf_iff_getElem]
  constructor <;> intro h k hk
  · have hs := h k hk
    rwa [List.getElem?_drop] at hs
  · have hs := h k hk
    rwa [← List.getElem?_drop] at hs

theorem matchesAt_cons_succ (c : Char) (rest pat : Str) (j : Nat) :
    matchesAt (c :: rest) pat (j + 1) ↔ matchesAt rest pat j := Iff.rfl

theorem matchesAt_cons_zero (c : Char) (rest pat : Str) :
    matchesAt (c :: rest) pat 0 ↔ pat.isPrefixOf (c :: rest) = true := Iff.rfl

theorem matchesAt_lt_length (l pat : Str) (hne : pat ≠ []) (j : Nat)
    (h : matchesAt l pat j) : j < l.length := by
  rcases pat with _ | ⟨p0, pt⟩
  · exact absurd rfl hne
  · rw [matchesAt_iff] at h
    have h0 := h 0 (by simp)
    simp only [Nat.add_zero] at h0
    have : j < l.length := by
      by_contra hge
      rw [List.getElem?_eq_none (by omega)] at h0
      simp at h0
    exact this

theorem containsSub_iff (pat : Str) : ∀ s : Str,
    (containsSub s pat = true ↔ ∃ j, matchesAt s pat j) := by
  intro s
  induction s with
  | nil =>
    simp only [containsSub]
    constructor
    · intro h; exact ⟨0, h⟩
    · rintro ⟨j, hj⟩
      unfold matchesAt at hj
      simpa [List.drop_nil] using hj
  | cons c rest ih =>
    simp only [containsSub, Bool.or_eq_true]
    rw [ih]
    constructor
    · rintro (h | ⟨j, hj⟩)
      · exact ⟨0, h⟩
      · exact ⟨j + 1, (matchesAt_cons_succ c rest pat j).mpr hj⟩
    · rintro ⟨j, hj⟩
      cases j with
      | zero => exact Or.inl hj
      | succ j => exact Or.inr ⟨j, (matchesAt_cons_succ c rest pat j).mp hj⟩

theorem findSub_eq_some_iff (pat : Str) : ∀ (s : Str) (i : Nat),
    (findSub s pat = some i ↔ matchesAt s pat i ∧ ∀ j < i, ¬ matchesAt s pat j) := by
  intro s
  induction s with
  | nil =>
    intro i
    simp only [findSub]
    split_ifs with hp
    · constructor
      · rintro h
        simp only [Option.some.injEq] at h
        subst h
        exact ⟨hp, by omega⟩
      · rintro ⟨hm, hmin⟩
        rcases Nat.eq_zero_or_pos i with rfl | hpos
        · rfl
        · exact absurd (hmin 0 hpos) (by simpa [matchesAt] using hp)
    · constructor
      · intro h; cases h
      · rintro ⟨hm, -⟩
        exact absurd (by simpa [matchesAt] using hm) hp
  | cons c rest ih =>
    intro i
    simp only [findSub]
    split_ifs with hp
    · constructor
      · intro h
        simp only [Option.some.injEq] at h
        subst h
        exact ⟨hp, by omega⟩
      · rintro ⟨hm, hmin⟩
        rcases Nat.eq_zero_or_pos i with rfl | hpos
        · rfl
        · exact absurd (hmin 0 hpos) (by simpa [matchesAt_cons_zero] using hp)
    · constructor
      · intro h
        simp only [Option.map_eq_some'] at h
        obtain ⟨i', hi', rfl⟩ := h
        obtain ⟨hm', hmin'⟩ := (ih i').mp hi'
        refine ⟨(matchesAt_cons_succ c rest pat i').mpr hm', ?_⟩
        intro j hj
        cases j with
        | zero => simpa [matchesAt_cons_zero] using hp
        | succ j => exact fun hm => hmin' j (by omega) ((matchesAt_cons_succ c rest pat j).mp hm)
      · rintro ⟨hm, hmin⟩
        cases i with
        | zero => exact absurd ((matchesAt_cons_zero c rest pat).mp hm) (by simpa using hp)
        | succ i =>
          have hi : findSub rest pat = some i := (ih i).mpr
            ⟨(matchesAt_cons_succ c rest pat i).mp hm,
             fun j hj hmj => hmin (j + 1) (by omega) ((matchesAt_cons_succ c rest pat j).mpr hmj)⟩
          simp [hi]

theorem findSub_eq_none_iff (pat : Str) : ∀ s : Str,
    (findSub s pat = none ↔ containsSub s pat = false) := by
  intro s
  induction s with
  | nil =>
    simp only [findSub, containsSub]
    split_ifs with hp <;> simp [hp]
  | cons c rest ih =>
    simp only [findSub, containsSub]
    split_ifs with hp <;> simp [hp, ih]

theorem containsSub_exists_findSub (s pat : Str) (h : containsSub s pat = true) :
    ∃ i, findSub s pat = some i := by
  rcases hf : findSub s pat with _ | i
  · rw [findSub_eq_none_iff] at hf
    rw [hf] at h
    cases h
  · exact ⟨i, rfl⟩

theorem replaceFirst_eq_of_findSub (pat rep : Str) : ∀ (s : Str) (i : Nat),
    findSub s pat = some i →
    replaceFirst s pat rep = s.take i ++ rep ++ s.drop (i + pat.length) := by
  intro s
  induction s with
  | nil =>
    intro i h
    simp only [findSub] at h
    split_ifs at h with hp
    simp only [Option.some.injEq] at h
    subst h
    simp [replaceFirst, hp]
  | cons c rest ih =>
    intro i h
    simp only [findSub] at h
    split_ifs at h with hp
    · simp only [Option.some.injEq] at h
      subst h
      simp [replaceFirst, hp]
    · simp only [Option.map_eq_some'] at h
      obtain ⟨i', hi', rfl⟩ := h
      have hnp : ¬ pat.isPrefixOf (c :: rest) = true := hp
      simp only [replaceFirst, if_neg hnp]
      rw [ih i' hi']
      simp only [List.take_succ_cons, List.cons_append]
      rw [show i' + 1 + pat.length = (i' + pat.length) + 1 by omega]
      rfl

theorem subOcc_zero_not (l pat : Str) (hne : pat ≠ []) (h : subOccurrences l pat = 0)
    (j : Nat) : ¬ matchesAt l pat j := by
  intro hj
  have hjl : j < l.length := matchesAt_lt_length l pat hne j hj
  unfold subOccurrences at h
  rw [List.countP_eq_zero] at h
  have hh := h j (List.mem_range.mpr hjl)
  simp only [decide_eq_true_eq] at hh
  exact hh hj

theorem subOcc_one_unique (l pat : Str) (hne : pat ≠ []) (h : subOccurrences l pat = 1)
    (i j : Nat) (hi : matchesAt l pat i) (hj : matchesAt l pat j) : i = j := by
  have hil := matchesAt_lt_length l pat hne i hi
  have hjl := matchesAt_lt_length l pat hne j hj
  unfold subOccurrences at h
  rw [List.countP_eq_length_filter] at h
  obtain ⟨a, ha⟩ := List.length_eq_one.mp h
  have hmi : i ∈ (List.range l.length).filter (fun n => decide (matchesAt l pat n)) := by
    rw [List.mem_filter]
    exact ⟨List.mem_range.mpr hil, by simpa using hi⟩
  have hmj : j ∈ (List.range l.length).filter (fun n => decide (matchesAt l pat n)) := by
    rw [List.mem_filter]
    exact ⟨List.mem_range.mpr hjl, by simpa using hj⟩
  rw [ha, List.mem_singleton] at hmi hmj
  omega

theorem subOcc_one_exists (l pat : Str) (h : subOccurrences l pat = 1) :
    ∃ i, matchesAt l pat i := by
  unfold subOccurrences at h
  rw [List.countP_eq_length_filter] at h
  obtain ⟨a, ha⟩ := List.length_eq_one.mp h
  have hmem : a ∈ (List.range l.length).filter (fun n => decide (matchesAt l pat n)) := by
    rw [ha]
    exact List.mem_singleton_self a
  rw [List.mem_filter] at hmem
  exact ⟨a, by simpa using hmem.2⟩

theorem spliced_lt (l m2 : Str) (i : Nat) (hi : i ≤ l.length) (n : Nat) (hn : n < i) :
    (l.take i ++ m2 ++ l.drop (i + m2.length))[n]? = l[n]? := by
  have h1 : (l.take i).length = i := List.length_take_of_le hi
  rw [List.getElem?_append_left (by simp [h1]; omega),
    List.getElem?_append_left (by omega : n < (l.take i).length),
    List.getElem?_take_of_lt hn]

theorem spliced_mid (l m2 : Str) (i : Nat) (hi : i ≤ l.length) (n : Nat)
    (hn1 : i ≤ n) (hn2 : n < i + m2.length) :
    (l.take i ++ m2 ++ l.drop (i + m2.length))[n]? = m2[n - i]? := by
  have h1 : (l.take i).length = i := List.length_take_of_le hi
  rw [List.getElem?_append_left (by simp [h1]; omega),
    List.getElem?_append_right (by omega : (l.take i).length ≤ n), h1]

theorem spliced_ge (l m2 : Str) (i : Nat) (hi : i ≤ l.length) (n : Nat)
    (hn : i + m2.length ≤ n) :
    (l.take i ++ m2 ++ l.drop (i + m2.length))[n]? = l[n]? := by
  have h1 : (l.take i).length = i := List.length_take_of_le hi
  have h2 : (l.take i ++ m2).length = i + m2.length := by simp [h1]
  rw [List.getElem?_append_right (by omega : (l.take i ++ m2).length ≤ n), h2,
    List.getElem?_drop]
  congr 1
  omega

/-- Core of the toggle analysis: replacing the unique occurrence of a
5-character dash-led marker `m1` (no further dash inside either marker)
by `m2` in a line without any `m2` occurrence produces the spliced
line; that line has no `m1` occurrence left, and replacing its first
`m2` occurrence by `m1` restores the original line byte-for-byte. -/
theorem marker_swap (l m1 m2 : Str) (i : Nat)
    (h5 : m1.length = 5) (h5b : m2.length = 5)
    (hd1 : m1[0]? = some '-') (hd2 : m2[0]? = some '-')
    (hnd1 : ∀ k, 1 ≤ k → k ≤ 4 → m1[k]? ≠ some '-')
    (hnd2 : ∀ k, 1 ≤ k → k ≤ 4 → m2[k]? ≠ some '-')
    (hdiff : ∃ k, k < 5 ∧ m1[k]? ≠ m2[k]?)
    (hocc : matchesAt l m1 i)
    (huniq : ∀ j, matchesAt l m1 j → j = i)
    (hno : ∀ j, ¬ matchesAt l m2 j) :
    replaceFirst l m1 m2 = l.take i ++ m2 ++ l.drop (i + 5) ∧
    containsSub (l.take i ++ m2 ++ l.drop (i + 5)) m1 = false ∧
    containsSub (l.take i ++ m2 ++ l.drop (i + 5)) m2 = true ∧
    replaceFirst (l.take i ++ m2 ++ l.drop (i + 5)) m2 m1 = l := by
  have hlen : i + 5 ≤ l.length := by
    have h4 := (matchesAt_iff l m1 i).mp hocc 4 (by omega)
    rw [List.getElem?_eq_getElem (by omega : 4 < m1.length)] at h4
    rw [List.getElem?_eq_some] at h4
    obtain ⟨hlt, -⟩ := h4
    omega
  have hile : i ≤ l.length := by omega
  have hsplice5 : l.drop (i + m2.length) = l.drop (i + 5) := by rw [h5b]
  have hmid : ∀ n, i ≤ n → n < i + 5 →
      (l.take i ++ m2 ++ l.drop (i + 5))[n]? = m2[n - i]? := by
    intro n hn1 hn2
    rw [← hsplice5]
    exact spliced_mid l m2 i hile n hn1 (by omega)
  have hlt : ∀ n, n < i → (l.take i ++ m2 ++ l.drop (i + 5))[n]? = l[n]? := by
    intro n hn
    rw [← hsplice5]
    exact spliced_lt l m2 i hile n hn
  have hge : ∀ n, i + 5 ≤ n → (l.take i ++ m2 ++ l.drop (i + 5))[n]? = l[n]? := by
    intro n hn
    rw [← hsplice5]
    exact spliced_ge l m2 i hile n (by omega)
  have hfind1 : findSub l m1 = some i :=
    (findSub_eq_some_iff m1 l i).mpr
      ⟨hocc, fun j hji hmj => absurd (huniq j hmj) (by omega)⟩
  have hrepl1 : replaceFirst l m1 m2 = l.take i ++ m2 ++ l.drop (i + 5) := by
    rw [replaceFirst_eq_of_findSub m1 m2 l i hfind1, h5]
  have hnocc1 : ∀ j, ¬ matchesAt (l.take i ++ m2 ++ l.drop (i + 5)) m1 j := by
    intro j hj
    rw [matchesAt_iff] at hj
    rcases Nat.lt_trichotomy j i with hji | heq | hij
    · rcases le_or_lt (j + 5) i with hle | hgt
      · have hm : matchesAt l m1 j := by
          rw [matchesAt_iff]
          intro k hk
          rw [← hlt (j + k) (by omega)]
          exact hj k hk
        exact absurd (huniq j hm) (by omega)
      · have hk := hj (i - j) (by omega)
        rw [show j + (i - j) = i by omega] at hk
        have hLi := hmid i (by omega) (by omega)
        rw [Nat.sub_self] at hLi
        exact hnd1 (i - j) (by omega) (by omega) (hk.symm.trans (hLi.trans hd2))
    · subst heq
      obtain ⟨k, hk5, hkne⟩ := hdiff
      have hk := hj k (by omega)
      have hLk := hmid (j + k) (by omega) (by omega)
      rw [show j + k - j = k by omega] at hLk
      exact hkne (hk.symm.trans hLk)
    · rcases le_or_lt (i + 5) j with hle | hgt
      · have hm : matchesAt l m1 j := by
          rw [matchesAt_iff]
          intro k hk
          rw [← hge (j + k) (by omega)]
          exact hj k hk
        exact absurd (huniq j hm) (by omega)
      · have hk := hj 0 (by omega)
        rw [Nat.add_zero] at hk
        have hLj := hmid j (by omega) (by omega)
        exact hnd2 (j - i) (by omega) (by omega) (hLj.symm.trans (hk.trans hd1))
  have hcont1 : containsSub (l.take i ++ m2 ++ l.drop (i + 5)) m1 = false := by
    rcases hb : containsSub (l.take i ++ m2 ++ l.drop (i + 5)) m1 with _ | _
    · rfl
    · obtain ⟨j, hj⟩ := (containsSub_iff m1 _).mp hb
      exact absurd hj (hnocc1 j)
  have hocc2 : matchesAt (l.take i ++ m2 ++ l.drop (i + 5)) m2 i := by
    rw [matchesAt_iff]
    intro k hk
    have hLk := hmid (i + k) (by omega) (by omega)
    rw [show i + k - i = k by omega] at hLk
    exact hLk
  have hfind2 : findSub (l.take i ++ m2 ++ l.drop (i + 5)) m2 = some i := by
    refine (findSub_eq_some_iff m2 _ i).mpr ⟨hocc2, ?_⟩
    intro j hji hmj
    rw [matchesAt_iff] at hmj
    rcases le_or_lt (j + 5) i with hle | hgt
    · have hm : matchesAt l m2 j := by
        rw [matchesAt_iff]
        intro k hk
        rw [← hlt (j + k) (by omega)]
        exact hmj k hk
      exact hno j hm
    · have hk := hmj (i - j) (by omega)
      rw [show j + (i - j) = i by omega] at hk
      have hLi := hmid i (by omega) (by omega)
      rw [Nat.sub_self] at hLi
      exact hnd2 (i - j) (by omega) (by omega) (hk.symm.trans (hLi.trans hd2))
  have hback : replaceFirst (l.take i ++ m2 ++ l.drop (i + 5)) m2 m1 = l := by
    rw [replaceFirst_eq_of_findSub m2 m1 _ i hfind2, h5b]
    have htake : (l.take i ++ m2 ++ l.drop (i + 5)).take i = l.take i := by
      rw [List.append_assoc, List.take_append_of_le_length]
      · exact (List.take_take i i l).trans (by rw [Nat.min_self])
      · rw [List.length_take_of_le hile]
    have hdrop : (l.take i ++ m2 ++ l.drop (i + 5)).drop (i + 5) = l.drop (i + 5) := by
      refine List.drop_left' ?_
      simp [List.length_take_of_le hile, h5b]
    rw [htake, hdrop]
    obtain ⟨t, ht⟩ := List.isPrefixOf_iff_prefix.mp hocc
    have ht5 : t = l.drop (i + 5) := by
      have hd : (m1 ++ t).drop m1.length = t := List.drop_left m1 t
      rw [ht, h5, List.drop_drop] at hd
      rw [← hd]
    calc l.take i ++ m1 ++ l.drop (i + 5)
        = l.take i ++ (m1 ++ t) := by rw [← ht5, List.append_assoc]
      _ = l.take i ++ l.drop i := by rw [ht]
      _ = l := List.take_append_drop i l
  exact ⟨hrepl1, hcont1, (containsSub_iff m2 _).mpr ⟨i, hocc2⟩, hback⟩

theorem splitNl_ne_nil (s : Str) : splitNl s ≠ [] := by
  cases s with
  | nil => simp [splitNl]
  | cons c rest =>
    simp only [splitNl]
    split_ifs
    · simp
    · rcases h : splitNl rest with _ | ⟨l, ls⟩ <;> simp

theorem joinNl_splitNl (s : Str) : joinNl (splitNl s) = s := by
  induction s with
  | nil => rfl
  | cons c rest ih =>
    rcases hsp : splitNl rest with _ | ⟨l, ls⟩
    · exact absurd hsp (splitNl_ne_nil rest)
    · by_cases h : c = '\n'
      · subst h
        rw [show splitNl ('\n' :: rest) = [] :: splitNl rest from by simp [splitNl], hsp]
        show [] ++ '\n' :: joinNl (l :: ls) = '\n' :: rest
        rw [← hsp, ih]
        rfl
      · rw [show splitNl (c :: rest) = (c :: l) :: ls from by simp [splitNl, h, hsp]]
        cases ls with
        | nil =>
          show c :: l = c :: rest
          have hj : joinNl [l] = l := rfl
          rw [hsp] at ih
          rw [hj] at ih
          rw [ih]
        | cons l2 ls2 =>
          show (c :: l) ++ '\n' :: joinNl (l2 :: ls2) = c :: rest
          rw [hsp] at ih
          rw [List.cons_append]
          have hj : joinNl (l :: l2 :: ls2) = l ++ '\n' :: joinNl (l2 :: ls2) := rfl
          rw [← hj, ih]

theorem splitNl_no_nl (s : Str) : ∀ l ∈ splitNl s, '\n' ∉ l := by
  induction s with
  | nil =>
    intro l hl
    simp only [splitNl, List.mem_singleton] at hl
    subst hl
    simp
  | cons c rest ih =>
    intro l hl
    by_cases h : c = '\n'
    · subst h
      simp only [splitNl, if_pos rfl] at hl
      rcases List.mem_cons.mp hl with rfl | hmem
      · simp
      · exact ih l hmem
    · simp only [splitNl, if_neg h] at hl
      rcases hsp : splitNl rest with _ | ⟨l0, ls⟩
      · exact absurd hsp (splitNl_ne_nil rest)
      · rw [hsp] at hl
        rcases List.mem_cons.mp hl with rfl | hmem
        · intro hmm
          rcases List.mem_cons.mp hmm with he | hmem2
          · exact h he.symm
          · exact ih l0 (by rw [hsp]; exact List.mem_cons_self l0 ls) hmem2
        · exact ih l (by rw [hsp]; exact List.mem_cons_of_mem l0 hmem)

theorem splitNl_single (l : Str) (h : '\n' ∉ l) : splitNl l = [l] := by
  induction l with
  | nil => rfl
  | cons c cl ih =>
    have hc : ¬ c = '\n' := fun he => h (by rw [he]; exact List.mem_cons_self _ _)
    simp only [splitNl, if_neg hc]
    rw [ih fun hm => h (List.mem_cons_of_mem c hm)]

theorem splitNl_append_nl (l t : Str) (h : '\n' ∉ l) :
    splitNl (l ++ '\n' :: t) = l :: splitNl t := by
  induction l with
  | nil => simp [splitNl]
  | cons c cl ih =>
    have hc : ¬ c = '\n' := fun he => h (by rw [he]; exact List.mem_cons_self _ _)
    simp only [List.cons_append, splitNl, if_neg hc, List.append_eq]
    rw [ih fun hm => h (List.mem_cons_of_mem c hm)]

theorem splitNl_joinNl (ls : List Str) (hne : ls ≠ []) (h : ∀ l ∈ ls, '\n' ∉ l) :
    splitNl (joinNl ls) = ls := by
  induction ls with
  | nil => exact absurd rfl hne
  | cons l ls ih =>
    cases ls with
    | nil => exact splitNl_single l (h l (by simp))
    | cons l2 ls2 =>
      show splitNl (l ++ '\n' :: joinNl (l2 :: ls2)) = l :: l2 :: ls2
      rw [splitNl_append_nl l _ (h l (by simp))]
      rw [ih (by simp) fun x hx => h x (by simp [hx])]

theorem set_getElem_self {α : Type} (l : List α) (i : Nat) (x : α) (h : l[i]? = some x) :
    l.set i x = l := by
  induction l generalizing i with
  | nil => simp at h
  | cons c rest ih =>
    cases i with
    | zero =>
      simp only [List.getElem?_cons_zero, Option.some.injEq] at h
      subst h
      rfl
    | succ i =>
      simp only [List.getElem?_cons_succ] at h
      simp only [List.set_cons_succ]
      rw [ih i h]

theorem getCurrentSection_eq_some (a : App) (sec : Section)
    (h : getCurrentSection a = some sec) :
    0 ≤ a.currentIdx ∧ a.currentIdx < (a.sections.length : Int) ∧
      a.sections[a.currentIdx.toNat]? = some sec := by
  unfold getCurrentSection at h
  split_ifs at h with hc
  push_neg at hc
  rw [List.get?_eq_getElem?] at h
  exact ⟨hc.2.1, hc.2.2, h⟩

theorem toggleCheckbox_branch (a : App) (sec : Section) (idx : Int) (l' : Str)
    (hsec : getCurrentSection a = some sec)
    (h0 : 0 ≤ idx) (hlt : idx < ((splitNl sec.content).length : Int))
    (hbr : (containsSub ((splitNl sec.content).getD idx.toNat []) uncheckedMark = true ∧
        l' = replaceFirst ((splitNl sec.content).getD idx.toNat []) uncheckedMark checkedMark) ∨
      (containsSub ((splitNl sec.content).getD idx.toNat []) uncheckedMark = false ∧
        containsSub ((splitNl sec.content).getD idx.toNat []) checkedMark = true ∧
        l' = replaceFirst ((splitNl sec.content).getD idx.toNat []) checkedMark uncheckedMark)) :
    toggleCheckbox a idx = (true, { a with sections := a.sections.set a.currentIdx.toNat { sec with content := joinNl ((splitNl sec.content).set idx.toNat l') } }) := by
  unfold toggleCheckbox
  rw [hsec]
  dsimp only
  rw [if_neg (by push_neg; exact ⟨by omega, by omega⟩)]
  rcases hbr with ⟨hp, rfl⟩ | ⟨hnp, hq, rfl⟩
  · rw [if_pos hp]
  · rw [if_neg (by simp only [hnp]; simp), if_pos hq]

theorem marker_no_dash (m : Str) (hm : m = uncheckedMark ∨ m = checkedMark) :
    ∀ k, 1 ≤ k → k ≤ 4 → m[k]? ≠ some '-' := by
  intro k hk1 hk4
  have hk : k = 1 ∨ k = 2 ∨ k = 3 ∨ k = 4 := by omega
  rcases hm with rfl | rfl <;> rcases hk with rfl | rfl | rfl | rfl <;> decide

theorem toggle_line_core (l m1 m2 : Str)
    (hm : (m1 = uncheckedMark ∧ m2 = checkedMark) ∨ (m1 = checkedMark ∧ m2 = uncheckedMark))
    (h1 : subOccurrences l m1 = 1) (h2 : subOccurrences l m2 = 0) :
    containsSub l m1 = true ∧
    ∃ i, matchesAt l m1 i ∧
      replaceFirst l m1 m2 = l.take i ++ m2 ++ l.drop (i + 5) ∧
      containsSub (l.take i ++ m2 ++ l.drop (i + 5)) m1 = false ∧
      containsSub (l.take i ++ m2 ++ l.drop (i + 5)) m2 = true ∧
      replaceFirst (l.take i ++ m2 ++ l.drop (i + 5)) m2 m1 = l := by
  obtain ⟨i0, hi0⟩ := subOcc_one_exists l m1 h1
  have hne1 : m1 ≠ [] := by rcases hm with ⟨rfl, -⟩ | ⟨rfl, -⟩ <;> decide
  have hne2 : m2 ≠ [] := by rcases hm with ⟨-, rfl⟩ | ⟨-, rfl⟩ <;> decide
  have huniq : ∀ j, matchesAt l m1 j → j = i0 := fun j hj =>
    subOcc_one_unique l m1 hne1 h1 j i0 hj hi0
  have hno : ∀ j, ¬ matchesAt l m2 j := subOcc_zero_not l m2 hne2 h2
  have h5 : m1.length = 5 := by rcases hm with ⟨rfl, -⟩ | ⟨rfl, -⟩ <;> decide
  have h5b : m2.length = 5 := by rcases hm with ⟨-, rfl⟩ | ⟨-, rfl⟩ <;> decide
  have hd1 : m1[0]? = some '-' := by rcases hm with ⟨rfl, -⟩ | ⟨rfl, -⟩ <;> decide
  have hd2 : m2[0]? = some '-' := by rcases hm with ⟨-, rfl⟩ | ⟨-, rfl⟩ <;> decide
  have hnd1 : ∀ k, 1 ≤ k → k ≤ 4 → m1[k]? ≠ some '-' :=
    marker_no_dash m1 (by rcases hm with ⟨rfl, -⟩ | ⟨rfl, -⟩ <;> simp)
  have hnd2 : ∀ k, 1 ≤ k → k ≤ 4 → m2[k]? ≠ some '-' :=
    marker_no_dash m2 (by rcases hm with ⟨-, rfl⟩ | ⟨-, rfl⟩ <;> simp)
  have hdiff : ∃ k, k < 5 ∧ m1[k]? ≠ m2[k]? := by
    refine ⟨3, by omega, ?_⟩
    rcases hm with ⟨rfl, rfl⟩ | ⟨rfl, rfl⟩ <;> decide
  have hsw := marker_swap l m1 m2 i0 h5 h5b hd1 hd2 hnd1 hnd2 hdiff hi0 huniq hno
  exact ⟨(containsSub_iff m1 l).mpr ⟨i0, hi0⟩, i0, hi0, hsw.1, hsw.2.1, hsw.2.2.1, hsw.2.2.2⟩

theorem toggle_twice_app (a : App) (sec : Section) (idx : Int)
    (hsec : getCurrentSection a = some sec) (h0 : 0 ≤ idx)
    (hlt : idx < ((splitNl sec.content).length : Int))
    (l' l'' : Str) (hnl' : '\n' ∉ l')
    (hbr1 : (containsSub ((splitNl sec.content).getD idx.toNat []) uncheckedMark = true ∧
        l' = replaceFirst ((splitNl sec.content).getD idx.toNat []) uncheckedMark checkedMark) ∨
      (containsSub ((splitNl sec.content).getD idx.toNat []) uncheckedMark = false ∧
        containsSub ((splitNl sec.content).getD idx.toNat []) checkedMark = true ∧
        l' = replaceFirst ((splitNl sec.content).getD idx.toNat []) checkedMark uncheckedMark))
    (hbr2 : (containsSub l' uncheckedMark = true ∧
        l'' = replaceFirst l' uncheckedMark checkedMark) ∨
      (containsSub l' uncheckedMark = false ∧ containsSub l' checkedMark = true ∧
        l'' = replaceFirst l' checkedMark uncheckedMark))
    (hrestore : l'' = (splitNl sec.content).getD idx.toNat []) :
    (toggleCheckbox a idx).1 = true ∧
    (toggleCheckbox (toggleCheckbox a idx).2 idx).1 = true ∧
    (toggleCheckbox (toggleCheckbox a idx).2 idx).2 = a := by
  obtain ⟨hc0, hclt, hget⟩ := getCurrentSection_eq_some a sec hsec
  have hilt : idx.toNat < (splitNl sec.content).length := by omega
  have hcnat : a.currentIdx.toNat < a.sections.length := by omega
  have hl? : (splitNl sec.content)[idx.toNat]? =
      some ((splitNl sec.content).getD idx.toNat []) := by
    rw [List.getD_eq_getElem?_getD, List.getElem?_eq_getElem hilt]
    rfl
  have ht1 := toggleCheckbox_branch a sec idx l' hsec h0 hlt hbr1
  have hsec1 : getCurrentSection (toggleCheckbox a idx).2 =
      some { sec with content := joinNl ((splitNl sec.content).set idx.toNat l') } := by
    rw [ht1]
    unfold getCurrentSection
    dsimp only
    rw [List.length_set]
    rw [if_neg (by push_neg; exact ⟨by omega, hc0, by omega⟩)]
    rw [List.get?_eq_getElem?]
    exact List.getElem?_set_eq_of_lt _ hcnat
  have hsplit1 : splitNl (joinNl ((splitNl sec.content).set idx.toNat l')) =
      (splitNl sec.content).set idx.toNat l' := by
    refine splitNl_joinNl _ ?_ ?_
    · intro hnil
      have hlenp := List.length_set (splitNl sec.content) idx.toNat l'
      rw [hnil] at hlenp
      simp at hlenp
      omega
    · intro x hx
      rcases List.mem_or_eq_of_mem_set hx with hmem | rfl
      · exact splitNl_no_nl sec.content x hmem
      · exact hnl'
  have hlt2 : idx < (((splitNl (joinNl ((splitNl sec.content).set idx.toNat l'))).length : Int)) := by
    rw [hsplit1, List.length_set]
    exact hlt
  have hgetD2 : (splitNl (joinNl ((splitNl sec.content).set idx.toNat l'))).getD idx.toNat [] = l' := by
    rw [hsplit1, List.getD_eq_getElem?_getD, List.getElem?_set_eq_of_lt _ hilt]
    rfl
  have hbr2' : (containsSub ((splitNl (Section.content { sec with content := joinNl ((splitNl sec.content).set idx.toNat l') })).getD idx.toNat []) uncheckedMark = true ∧
        l'' = replaceFirst ((splitNl (Section.content { sec with content := joinNl ((splitNl sec.content).set idx.toNat l') })).getD idx.toNat []) uncheckedMark checkedMark) ∨
      (containsSub ((splitNl (Section.content { sec with content := joinNl ((splitNl sec.content).set idx.toNat l') })).getD idx.toNat []) uncheckedMark = false ∧
        containsSub ((splitNl (Section.content { sec with content := joinNl ((splitNl sec.content).set idx.toNat l') })).getD idx.toNat []) checkedMark = true ∧
        l'' = replaceFirst ((splitNl (Section.content { sec with content := joinNl ((splitNl sec.content).set idx.toNat l') })).getD idx.toNat []) checkedMark uncheckedMark) := by
    show (containsSub ((splitNl (joinNl ((splitNl sec.content).set idx.toNat l'))).getD idx.toNat []) uncheckedMark = true ∧ _) ∨ _
    rw [hgetD2]
    exact hbr2
  have ht2 := toggleCheckbox_branch (toggleCheckbox a idx).2
    { sec with content := joinNl ((splitNl sec.content).set idx.toNat l') } idx l''
    hsec1 h0 hlt2 hbr2'
  refine ⟨by rw [ht1], by rw [ht2], ?_⟩
  rw [ht2, ht1]
  dsimp only
  rw [show (splitNl (Section.content { sec with content := joinNl ((splitNl sec.content).set idx.toNat l') })) = (splitNl sec.content).set idx.toNat l' from hsplit1]
  rw [hrestore]
  rw [List.set_set, List.set_set]
  rw [set_getElem_self (splitNl sec.content) idx.toNat _ hl?]
  rw [joinNl_splitNl sec.content]
  rw [show ({ title := sec.title, content := sec.content, level := sec.level, line := sec.line } : Section) = sec from rfl]
  rw [set_getElem_self a.sections a.currentIdx.toNat sec hget]

theorem toggle_line_to_branch (l : Str) (hnl : '\n' ∉ l)
    (hcase : (subOccurrences l uncheckedMark = 1 ∧ subOccurrences l checkedMark = 0) ∨
      (subOccurrences l uncheckedMark = 0 ∧ subOccurrences l checkedMark = 1)) :
    ∃ l' l'', '\n' ∉ l' ∧
      ((containsSub l uncheckedMark = true ∧
          l' = replaceFirst l uncheckedMark checkedMark) ∨
        (containsSub l uncheckedMark = false ∧ containsSub l checkedMark = true ∧
          l' = replaceFirst l checkedMark uncheckedMark)) ∧
      ((containsSub l' uncheckedMark = true ∧
          l'' = replaceFirst l' uncheckedMark checkedMark) ∨
        (containsSub l' uncheckedMark = false ∧ containsSub l' checkedMark = true ∧
          l'' = replaceFirst l' checkedMark uncheckedMark)) ∧
      l'' = l := by
  have hnl_of : ∀ (m2 : Str) (i : Nat), m2 = uncheckedMark ∨ m2 = checkedMark →
      '\n' ∉ l → '\n' ∉ l.take i ++ m2 ++ l.drop (i + 5) := by
    intro m2 i hm2 hnl hmm
    rcases List.mem_append.mp hmm with h' | h'
    · rcases List.mem_append.mp h' with h'' | h''
      · exact hnl (List.take_subset i l h'')
      · rcases hm2 with rfl | rfl <;> exact absurd h'' (by decide)
    · exact hnl (List.drop_subset (i + 5) l h')
  rcases hcase with ⟨h1, h2⟩ | ⟨h1, h2⟩
  · obtain ⟨hcont, i0, hocc, hrepl, hnc1, hc2, hback⟩ :=
      toggle_line_core l uncheckedMark checkedMark (Or.inl ⟨rfl, rfl⟩) h1 h2
    refine ⟨replaceFirst l uncheckedMark checkedMark,
      replaceFirst (replaceFirst l uncheckedMark checkedMark) checkedMark uncheckedMark,
      ?_, Or.inl ⟨hcont, rfl⟩, ?_, ?_⟩
    · rw [hrepl]
      exact hnl_of checkedMark i0 (Or.inr rfl) hnl
    · rw [hrepl]
      exact Or.inr ⟨hnc1, hc2, rfl⟩
    · rw [hrepl, hback]
  · obtain ⟨hcont, i0, hocc, hrepl, hnc1, hc2, hback⟩ :=
      toggle_line_core l checkedMark uncheckedMark (Or.inr ⟨rfl, rfl⟩) h2 h1
    have hnp : containsSub l uncheckedMark = false := by
      rcases hb : containsSub l uncheckedMark with _ | _
      · rfl
      · obtain ⟨j, hj⟩ := (containsSub_iff uncheckedMark l).mp hb
        exact absurd hj (subOcc_zero_not l uncheckedMark (by decide) h1 j)
    refine ⟨replaceFirst l checkedMark uncheckedMark,
      replaceFirst (replaceFirst l checkedMark uncheckedMark) uncheckedMark checkedMark,
      ?_, Or.inr ⟨hnp, hcont, rfl⟩, ?_, ?_⟩
    · rw [hrepl]
      exact hnl_of uncheckedMark i0 (Or.inl rfl) hnl
    · rw [hrepl]
      exact Or.inl ⟨hc2, rfl⟩
    · rw [hrepl, hback]

/-- C2 (amended): for a content line of the current section that
contains EXACTLY ONE checkbox marker occurrence (one unchecked or one
checked marker — not one of each, not duplicated), toggling that line
twice, with no other edits between the two calls, reports success both
times and restores the whole application state, in particular the
section content byte-for-byte.  On lines containing both a checked and
an unchecked marker this fails — see the counterexample. -/
theorem toggle_involution (a : App) (sec : Section) (idx : Int)
    (hsec : getCurrentSection a = some sec)
    (h0 : 0 ≤ idx) (hlt : idx < ((splitNl sec.content).length : Int))
    (hone : subOccurrences ((splitNl sec.content).getD idx.toNat []) uncheckedMark +
        subOccurrences ((splitNl sec.content).getD idx.toNat []) checkedMark = 1) :
    (toggleCheckbox a idx).1 = true ∧
    (toggleCheckbox (toggleCheckbox a idx).2 idx).1 = true ∧
    (toggleCheckbox (toggleCheckbox a idx).2 idx).2 = a := by
  have hilt : idx.toNat < (splitNl sec.content).length := by omega
  have hl? : (splitNl sec.content)[idx.toNat]? =
      some ((splitNl sec.content).getD idx.toNat []) := by
    rw [List.getD_eq_getElem?_getD, List.getElem?_eq_getElem hilt]
    rfl
  have hnl0 : '\n' ∉ (splitNl sec.content).getD idx.toNat [] :=
    splitNl_no_nl sec.content _ (List.getElem?_mem hl?)
  obtain ⟨l', l'', hnl', hbr1, hbr2, hrest⟩ :=
    toggle_line_to_branch ((splitNl sec.content).getD idx.toNat []) hnl0 (by omega)
  exact toggle_twice_app a sec idx hsec h0 hlt l' l'' hnl' hbr1 hbr2 hrest

/-- C2 counterexample: on a line containing both a checked and an
unchecked marker (checked first), toggling the same line index twice
does NOT restore the content: the first toggle checks the unchecked
marker, the second toggle unchecks the FIRST checked marker — a
different one — leaving `- [ ] a - [x] b` instead of the original
`- [x] a - [ ] b`. -/
theorem toggle_twice_counterexample :
    cApp2.sections.map Section.content = [strOf ("- [x] a - [ ] b")] ∧
    (toggleCheckbox cApp2 0).1 = true ∧
    (toggleCheckbox (toggleCheckbox cApp2 0).2 0).1 = true ∧
    (toggleCheckbox (toggleCheckbox cApp2 0).2 0).2.sections.map Section.content =
      [strOf ("- [ ] a - [x] b")] ∧
    (toggleCheckbox (toggleCheckbox cApp2 0).2 0).2 ≠ cApp2 := by
  exact ⟨by decide, by decide, by decide, by decide, by decide⟩

/-- Closed instance of `toggle_involution`: toggling the only marker of
`- [ ] task` twice restores the whole state. -/
theorem toggle_involution_witness :
    (toggleCheckbox cApp2w 0).1 = true ∧
    (toggleCheckbox (toggleCheckbox cApp2w 0).2 0).1 = true ∧
    (toggleCheckbox (toggleCheckbox cApp2w 0).2 0).2 = cApp2w :=
  toggle_involution cApp2w ⟨strOf ("T"), strOf ("- [ ] task"), 1, 0⟩ 0
    (by decide) (by decide) (by decide) (by decide)

/-- C1: evaluation of `updateFileSection` at a failing input.  The
state is immediately after a parse (first conjunct: re-parsing the
backing lines yields exactly the stored sections' titles, levels and
start lines) with section 0's content grown from 1 to 3 lines — as a
note insertion does — and the backing slice at capacity 4 (a fresh
`strings.Split` has capacity = length).  The first Go `append` then
rewrites the backing array in place before `a.FileLines[endLine:]` is
read, so the replacement is NOT confined to the line range [0, 2): the
result duplicates the new content over the second section instead of
preserving `## B` and `y` (third conjunct: the outcome differs from
the intended splice). -/
theorem updateFileSection_corruption :
    parseSections cApp1.fileLines =
      [⟨strOf ("A"), strOf ("x"), 1, 0⟩, ⟨strOf ("B"), strOf ("y"), 2, 2⟩] ∧
    (updateFileSection 4 cApp1 0).map App.fileLines =
      some [strOf ("# A"), strOf ("x"), strOf ("new1"), strOf ("new2"),
        strOf ("new1"), strOf ("new2")] ∧
    (updateFileSection 4 cApp1 0).map App.fileLines ≠
      some (cApp1.fileLines.take 0 ++
        (strOf ("# A") :: splitNl (strOf ("x\nnew1\nnew2"))) ++ cApp1.fileLines.drop 2) := by
  exact ⟨by decide, by decide, by decide⟩

/-- C5: evaluation of `updateFileSection` followed by `parseSections`
at a failing input (same aliasing bug as in
`updateFileSection_corruption`, different content).  Re-parsing the
resulting lines does NOT reproduce the in-memory section 0: its content
comes back doubled (`x\na\nb\na\nb` instead of `x\na\nb`) and the
second section has disappeared entirely. -/
theorem update_reparse_mismatch :
    parseSections cApp5.fileLines =
      [⟨strOf ("A"), strOf ("x"), 1, 0⟩, ⟨strOf ("B"), strOf ("y"), 2, 2⟩] ∧
    (updateFileSection 4 cApp5 0).map (fun a2 => parseSections a2.fileLines) =
      some [⟨strOf ("A"), strOf ("x\na\nb\na\nb"), 1, 0⟩] ∧
    (updateFileSection 4 cApp5 0).map (fun a2 => (parseSections a2.fileLines).map Section.content) ≠
      some [strOf ("x\na\nb"), strOf ("y")] := by
  exact ⟨by decide, by decide, by decide⟩

/-- `strings.Replace(s, pat, rep, 1)` either leaves the string alone or
produces a string holding every character of the replacement. -/
theorem replaceFirst_self_or_mem (s pat rep : Str) (x : Char) (hx : x ∈ rep) :
    replaceFirst s pat rep = s ∨ x ∈ replaceFirst s pat rep := by
  induction s with
  | nil =>
    unfold replaceFirst
    split_ifs with h
    · right; exact hx
    · left; rfl
  | cons c rest ih =>
    unfold replaceFirst
    split_ifs with h
    · right; exact List.mem_append_left _ hx
    · rcases ih with h1 | h1
      · left; rw [h1]
      · right; exact List.mem_cons_of_mem c h1

/-- A `Contains`-guarded `Replace` leaves the string alone or marks it
with any chosen character of the replacement. -/
theorem guardRep_self_or_esc (s pat rep : Str) (x : Char) (hx : x ∈ rep) :
    (if containsSub s pat then replaceFirst s pat rep else s) = s ∨
      x ∈ (if containsSub s pat then replaceFirst s pat rep else s) := by
  split_ifs with h
  · exact replaceFirst_self_or_mem s pat rep x hx
  · left; rfl

/-- Composing two passes that each leave the line alone or stamp the
escape character again leaves the line alone or stamps it. -/
theorem comp_self_or_esc {f g : Str → Str}
    (hf : ∀ s, f s = s ∨ escChar ∈ f s) (hg : ∀ s, g s = s ∨ escChar ∈ g s) :
    ∀ s, g (f s) = s ∨ escChar ∈ g (f s) := by
  intro s
  rcases hf s with h1 | h1
  · rw [h1]; exact hg s
  · rcases hg (f s) with h2 | h2
    · rw [h2]; right; exact h1
    · right; exact h2

/-- The checkbox pass leaves the line alone or stamps an escape. -/
theorem renderCheckbox_self_or_esc (s : Str) :
    renderCheckbox s = s ∨ escChar ∈ renderCheckbox s := by
  simp only [renderCheckbox]
  rcases guardRep_self_or_esc s uncheckedMark (redE ++ uncheckedGlyph ++ resetE)
      escChar (by decide) with h1 | h1
  · rw [h1]
    exact guardRep_self_or_esc s checkedMark (greenE ++ checkedGlyph ++ resetE)
      escChar (by decide)
  · rcases guardRep_self_or_esc
        (if containsSub s uncheckedMark then
          replaceFirst s uncheckedMark (redE ++ uncheckedGlyph ++ resetE) else s)
        checkedMark (greenE ++ checkedGlyph ++ resetE) escChar (by decide) with h2 | h2
    · rw [h2]; right; exact h1
    · right; exact h2

/-- The bold pass leaves the line alone or stamps an escape. -/
theorem replaceAllBoldF_self_or_esc (fuel : Nat) (s : Str) :
    replaceAllBoldF fuel s = s ∨ escChar ∈ replaceAllBoldF fuel s := by
  induction fuel generalizing s with
  | zero => left; rfl
  | succ n ih =>
    cases s with
    | nil => left; rfl
    | cons c rest =>
      cases hB : boldAt (c :: rest) with
      | none =>
        have hstep : replaceAllBoldF (n + 1) (c :: rest) = c :: replaceAllBoldF n rest := by
          simp only [replaceAllBoldF, hB]
        rw [hstep]
        rcases ih rest with h1 | h1
        · left; rw [h1]
        · right; exact List.mem_cons_of_mem c h1
      | some p =>
        obtain ⟨g, after⟩ := p
        have hstep : replaceAllBoldF (n + 1) (c :: rest) =
            boldE ++ g ++ resetE ++ replaceAllBoldF n after := by
          simp only [replaceAllBoldF, hB]
        rw [hstep]
        right
        exact List.mem_append_left _ (List.mem_append_left _
          (List.mem_append_left _ (by decide)))

/-- The italic pass leaves the line alone or stamps an escape. -/
theorem replaceAllItalF_self_or_esc (fuel : Nat) (b : Bool) (s : Str) :
    replaceAllItalF fuel b s = s ∨ escChar ∈ replaceAllItalF fuel b s := by
  induction fuel generalizing b s with
  | zero => left; rfl
  | succ n ih =>
    cases s with
    | nil => left; rfl
    | cons c rest =>
      cases hB : (if b then italCore (c :: rest) else none) with
      | some p =>
        obtain ⟨g, after⟩ := p
        have hstep : replaceAllItalF (n + 1) b (c :: rest) =
            italicE ++ g ++ resetE ++ replaceAllItalF n false after := by
          simp only [replaceAllItalF, hB]
        rw [hstep]
        right
        exact List.mem_append_left _ (List.mem_append_left _
          (List.mem_append_left _ (by decide)))
      | none =>
        by_cases hc : c = '*'
        · subst hc
          have hstep : replaceAllItalF (n + 1) b ('*' :: rest) =
              '*' :: replaceAllItalF n false rest := by
            simp [replaceAllItalF, hB]
          rw [hstep]
          rcases ih false rest with h1 | h1
          · left; rw [h1]
          · right; exact List.mem_cons_of_mem '*' h1
        · cases hC : italCore rest with
          | some p =>
            obtain ⟨g, after⟩ := p
            have hstep : replaceAllItalF (n + 1) b (c :: rest) =
                italicE ++ g ++ resetE ++ replaceAllItalF n false after := by
              simp only [replaceAllItalF, hB, hC, if_neg hc]
            rw [hstep]
            right
            exact List.mem_append_left _ (List.mem_append_left _
              (List.mem_append_left _ (by decide)))
          | none =>
            have hstep : replaceAllItalF (n + 1) b (c :: rest) =
                c :: replaceAllItalF n false rest := by
              simp only [replaceAllItalF, hB, hC, if_neg hc]
            rw [hstep]
            rcases ih false rest with h1 | h1
            · left; rw [h1]
            · right; exact List.mem_cons_of_mem c h1

/-- The inline-code pass leaves the line alone or stamps an escape. -/
theorem replaceAllCodeF_self_or_esc (fuel : Nat) (s : Str) :
    replaceAllCodeF fuel s = s ∨ escChar ∈ replaceAllCodeF fuel s := by
  induction fuel generalizing s with
  | zero => left; rfl
  | succ n ih =>
    cases s with
    | nil => left; rfl
    | cons c rest =>
      cases hB : codeAt (c :: rest) with
      | none =>
        have hstep : replaceAllCodeF (n + 1) (c :: rest) = c :: replaceAllCodeF n rest := by
          simp only [replaceAllCodeF, hB]
        rw [hstep]
        rcases ih rest with h1 | h1
        · left; rw [h1]
        · right; exact List.mem_cons_of_mem c h1
      | some p =>
        obtain ⟨g, after⟩ := p
        have hstep : replaceAllCodeF (n + 1) (c :: rest) =
            bgBlackE ++ cyanE ++ g ++ resetE ++ replaceAllCodeF n after := by
          simp only [replaceAllCodeF, hB]
        rw [hstep]
        right
        exact List.mem_append_left _ (List.mem_append_left _ (List.mem_append_left _
          (List.mem_append_left _ (by decide))))

/-- The bullet pass leaves the line alone or stamps an escape. -/
theorem renderBullet_self_or_esc (s : Str) :
    renderBullet s = s ∨ escChar ∈ renderBullet s := by
  unfold renderBullet
  split_ifs with h
  · exact replaceFirst_self_or_mem s (strOf ("- "))
      (yellowE ++ bulletGlyph ++ [' '] ++ resetE) escChar (by decide)
  · left; rfl

/-- The numbered-list pass leaves the line alone or stamps an escape. -/
theorem renderNum_self_or_esc (s : Str) :
    renderNum s = s ∨ escChar ∈ renderNum s := by
  simp only [renderNum]
  split
  · left; rfl
  · split
    · split
      · right
        exact List.mem_append_left _ (List.mem_append_left _ (List.mem_append_left _
          (List.mem_append_left _ (List.mem_append_right _ (by decide)))))
      · left; rfl
    · left; rfl

/-- The quote pass leaves the line alone or stamps an escape. -/
theorem renderQuote_self_or_esc (s : Str) :
    renderQuote s = s ∨ escChar ∈ renderQuote s := by
  unfold renderQuote
  split_ifs with h
  · right
    exact List.mem_append_left _ (List.mem_append_left _ (List.mem_append_left _
      (List.mem_append_left _ (by decide))))
  · left; rfl

/-- After the seven transformation passes preceding the horizontal-rule
check, the line is either untouched or holds an ANSI escape character
(so its trimmed form cannot newly become `---`). -/
theorem renderPasses_self_or_esc (line : Str) :
    renderQuote (renderNum (renderBullet (replaceAllCode (replaceAllItal
      (replaceAllBold (renderCheckbox line)))))) = line ∨
    escChar ∈ renderQuote (renderNum (renderBullet (replaceAllCode (replaceAllItal
      (replaceAllBold (renderCheckbox line)))))) := by
  have hBold : ∀ s, replaceAllBold s = s ∨ escChar ∈ replaceAllBold s :=
    fun s => replaceAllBoldF_self_or_esc s.length s
  have hItal : ∀ s, replaceAllItal s = s ∨ escChar ∈ replaceAllItal s :=
    fun s => replaceAllItalF_self_or_esc s.length true s
  have hCode : ∀ s, replaceAllCode s = s ∨ escChar ∈ replaceAllCode s :=
    fun s => replaceAllCodeF_self_or_esc s.length s
  have h2 : ∀ s, replaceAllBold (renderCheckbox s) = s ∨
      escChar ∈ replaceAllBold (renderCheckbox s) :=
    comp_self_or_esc renderCheckbox_self_or_esc hBold
  have h3 : ∀ s, replaceAllItal (replaceAllBold (renderCheckbox s)) = s ∨
      escChar ∈ replaceAllItal (replaceAllBold (renderCheckbox s)) :=
    comp_self_or_esc h2 hItal
  have h4 : ∀ s, replaceAllCode (replaceAllItal (replaceAllBold (renderCheckbox s))) = s ∨
      escChar ∈ replaceAllCode (replaceAllItal (replaceAllBold (renderCheckbox s))) :=
    comp_self_or_esc h3 hCode
  have h5 : ∀ s, renderBullet (replaceAllCode (replaceAllItal (replaceAllBold
      (renderCheckbox s)))) = s ∨
      escChar ∈ renderBullet (replaceAllCode (replaceAllItal (replaceAllBold
      (renderCheckbox s)))) :=
    comp_self_or_esc h4 renderBullet_self_or_esc
  have h6 : ∀ s, renderNum (renderBullet (replaceAllCode (replaceAllItal (replaceAllBold
      (renderCheckbox s))))) = s ∨
      escChar ∈ renderNum (renderBullet (replaceAllCode (replaceAllItal (replaceAllBold
      (renderCheckbox s))))) :=
    comp_self_or_esc h5 renderNum_self_or_esc
  exact comp_self_or_esc h6 renderQuote_self_or_esc line

/-- A non-whitespace character of a string survives `dropWhile`. -/
theorem mem_dropWhile_of_neg (p : Char → Bool) (l : Str) (x : Char)
    (hx : x ∈ l) (hp : p x = false) : x ∈ l.dropWhile p := by
  induction l with
  | nil => cases hx
  | cons c rest ih =>
    rw [List.dropWhile_cons]
    split_ifs with hc
    · rcases List.mem_cons.mp hx with rfl | h
      · simp [hc] at hp
      · exact ih h
    · exact hx

/-- A non-whitespace character of a string survives `strings.TrimSpace`. -/
theorem mem_trimS (s : Str) (x : Char) (hx : x ∈ s) (hw : isWs x = false) :
    x ∈ trimS s := by
  unfold trimS trimRightWs trimLeftWs
  rw [List.mem_reverse]
  apply mem_dropWhile_of_neg _ _ _ _ hw
  rw [List.mem_reverse]
  exact mem_dropWhile_of_neg _ _ _ hx hw

/-- C3 (amended): `renderLine` terminates normally on every input except
a line whose trimmed form is the horizontal-rule marker `---` rendered
at a terminal width below 4 (where `strings.Repeat` receives a negative
count and panics); `addNote` terminates normally whenever the current
section index is in bounds (an empty note being a pure no-op), but not —
contrary to the claim — on an out-of-bounds index with a non-empty
note. -/
theorem render_addNote_total :
    (∀ (line : Str) (w : Int), (4 ≤ w ∨ trimS line ≠ strOf ("---")) →
        (renderLine line w).isSome = true) ∧
    (∀ (a : App) (ts note : Str), 0 ≤ a.currentIdx →
        a.currentIdx.toNat < a.sections.length →
        (addNote a ts note).isSome = true) ∧
    (∀ (a : App) (ts : Str), addNote a ts [] = some a) := by
  refine ⟨?_, ?_, ?_⟩
  · intro line w hw
    simp only [renderLine]
    set L := renderQuote (renderNum (renderBullet (replaceAllCode (replaceAllItal
      (replaceAllBold (renderCheckbox line)))))) with hL
    by_cases hhr : trimS L = strOf ("---")
    · rw [if_pos hhr]
      have hw4 : 4 ≤ w := by
        rcases hw with h | h
        · exact h
        · exfalso
          have hP := renderPasses_self_or_esc line
          rw [← hL] at hP
          rcases hP with h1 | h1
          · rw [h1] at hhr
            exact h hhr
          · have h2 : escChar ∈ trimS L := mem_trimS _ _ h1 (by decide)
            rw [hhr] at h2
            exact absurd h2 (by decide)
      rw [if_neg (not_lt.mpr hw4)]
      rfl
    · rw [if_neg hhr]
      rfl
  · intro a ts note h0 hlen
    unfold addNote
    by_cases hnote : note = []
    · rw [if_pos hnote]
      rfl
    · rw [if_neg hnote, if_pos h0]
      have hget : a.sections.get? a.currentIdx.toNat =
          some (a.sections.get ⟨a.currentIdx.toNat, hlen⟩) := by
        rw [List.get?_eq_getElem?]
        exact List.getElem?_eq_getElem hlen
      rw [hget]
      rfl
  · intro a ts
    unfold addNote
    rw [if_pos rfl]

/-- C3 (counterexample): rendering a horizontal-rule line at width 0
panics (`strings.Repeat` with count −4), and adding a non-empty note to
a document with zero sections panics (index 0 into an empty slice) —
both modelled as `none`. -/
theorem render_addNote_panic :
    renderLine (strOf ("---")) 0 = none ∧
    addNote { sections := [], currentIdx := 0, fileLines := [] }
      (strOf ("ts")) (strOf ("x")) = none := by
  exact ⟨by decide, by decide⟩

/-- Witness: the amended totality theorem applied at a wide rule line, a
narrow ordinary line, and an in-bounds note insertion. -/
theorem render_addNote_total_witness :
    (renderLine (strOf ("---")) 80).isSome = true ∧
    (renderLine (strOf ("hello")) 0).isSome = true ∧
    (addNote cApp2w (strOf ("ts")) (strOf ("x"))).isSome = true ∧
    addNote cApp2w (strOf ("ts")) [] = some cApp2w := by
  exact ⟨render_addNote_total.1 (strOf ("---")) 80 (Or.inl (by decide)),
    render_addNote_total.1 (strOf ("hello")) 0 (Or.inr (by decide)),
    render_addNote_total.2.1 cApp2w (strOf ("ts")) (strOf ("x")) (by decide) (by decide),
    render_addNote_total.2.2 cApp2w (strOf ("ts"))⟩

end SreLearn
